import Mathlib

/-!
Verification of the dbt-log parser (src/dbt_log_status.py).

The Python module extracts structured records from dbt console-log lines via
five fixed regular expressions, consolidates records per id into a dict, and
ranks the consolidated records by runtime.

Embedding choices:
* Strings are Lean `String`/`List Char`; the five fixed regexes are transcribed
  into a list of atoms (character class, literal, greedy star of a class,
  alternation of literals) and executed by a small backtracking matcher with
  Python semantics (leftmost match, greedy star with backtracking, alternatives
  tried in order).
* Python `float` values parsed from decimal text are modelled as `Rat`; the
  parsed decimals are compared only among themselves, and decimal-to-float
  rounding is monotone, so ordering-based claims are unaffected.
* Python exceptions (ValueError from `int()`/`float()`/`str.index`,
  AttributeError from calling `.group` on `None`) are modelled with `Except`.
* The Python dict (insertion-ordered, unique keys) is an association list.
-/

set_option maxHeartbeats 1000000

/-- Decimal digit, the `\d` class restricted to ASCII (the only digits these
logs can contain). -/
def pyDigit (c : Char) : Bool := c.isDigit

/-- The Python `\s` class (ASCII/Latin-1 part; the wider Unicode spaces cannot
occur in these logs). -/
def pySpace (c : Char) : Bool :=
  c = ' ' || c = '\t' || c = '\n' || c = '\x0d' || c = '\x0b' || c = '\x0c' ||
  c = '\x1c' || c = '\x1d' || c = '\x1e' || c = '\x1f' || c = '\x85' || c = '\xa0'

/-- The class in the runtime regex, written in the source as [0-9.] . -/
def numDot (c : Char) : Bool := c.isDigit || c = '.'

/-- The class in the model-name regex, written in the source as [.a-z_0-9 ] . -/
def modelChar (c : Char) : Bool :=
  c = '.' || (('a' ≤ c) && (c ≤ 'z')) || c = '_' || c.isDigit || c = ' '

/-- One atom of a transcribed regex: a single character from a class, a literal
string, a greedy star over a class, or an alternation of literal strings. -/
inductive Atom where
  | cls : (Char → Bool) → Atom
  | str : List Char → Atom
  | star : (Char → Bool) → Atom
  | alts : List (List Char) → Atom

/-- Boolean test that a literal occurs at the start of the input. -/
def litAt : List Char → List Char → Bool
  | [], _ => true
  | _ :: _, [] => false
  | a :: l, b :: s => a == b && litAt l s

/-- Greedy repetition over a continuation: try consuming k characters (k
starting at the longest possible run of the class), calling the continuation
on the rest and retrying with k-1 when it fails.  This mirrors how Python
backtracks a greedy star. -/
def starRun (cont : List Char → Option (List (List Char) × List Char))
    (s : List Char) : Nat → Option (List (List Char) × List Char)
  | 0 =>
    match cont s with
    | some (segs, r) => some ([] :: segs, r)
    | none => none
  | k + 1 =>
    match cont (s.drop (k + 1)) with
    | some (segs, r) => some (s.take (k + 1) :: segs, r)
    | none => starRun cont s k

/-- Alternation over a continuation: try the literal alternatives in order,
backtracking into later alternatives when the continuation fails. -/
def altRun (cont : List Char → Option (List (List Char) × List Char)) :
    List (List Char) → List Char → Option (List (List Char) × List Char)
  | [], _ => none
  | l :: ls, s =>
    if litAt l s then
      match cont (s.drop l.length) with
      | some (segs, r) => some (l :: segs, r)
      | none => altRun cont ls s
    else altRun cont ls s

/-- Anchored match of a list of atoms against the input; returns the matched
segment of each atom and the unconsumed suffix.  Backtracking follows Python:
a star first takes the longest run of its class and shortens it on failure of
the continuation; alternatives are tried in order. -/
def matchA : List Atom → List Char → Option (List (List Char) × List Char)
  | [], s => some ([], s)
  | .cls c :: as, s =>
    match s with
    | [] => none
    | x :: s' =>
      if c x then
        match matchA as s' with
        | some (segs, r) => some ([x] :: segs, r)
        | none => none
      else none
  | .str l :: as, s =>
    if litAt l s then
      match matchA as (s.drop l.length) with
      | some (segs, r) => some (l :: segs, r)
      | none => none
    else none
  | .alts ls :: as, s => altRun (fun t => matchA as t) ls s
  | .star c :: as, s => starRun (fun t => matchA as t) s (s.takeWhile c).length

/-- Unanchored search, like Python re.search: try an anchored match at every
start position from the left and keep the first that succeeds. -/
def searchA (as : List Atom) : List Char → Option (List (List Char))
  | [] => (matchA as []).map (·.1)
  | c :: s' =>
    match matchA as (c :: s') with
    | some (segs, _) => some segs
    | none => searchA as s'

/-- Transcription of the line-shape regex used by is_a_model_line and get_id,
written in the source as (\d*:\d*:\d*)\s*(\d*\s(of)\s*\d*) .
Group 1 is atoms 0-4, group 2 is atoms 6-10, group 3 is atom 8. -/
def modelLinePat : List Atom :=
  [.star pyDigit, .str [':'], .star pyDigit, .str [':'], .star pyDigit,
   .star pySpace,
   .star pyDigit, .cls pySpace, .str ['o', 'f'], .star pySpace, .star pyDigit]

/-- Transcription of the status regex, written in the source as
(\d*:\d*:\d*\s*\d*\sof\s*\d*)\s*(START|ERROR|OK) .  Group 2 is atom 12. -/
def statusPat : List Atom :=
  [.star pyDigit, .str [':'], .star pyDigit, .str [':'], .star pyDigit,
   .star pySpace,
   .star pyDigit, .cls pySpace, .str ['o', 'f'], .star pySpace, .star pyDigit,
   .star pySpace,
   .alts [['S', 'T', 'A', 'R', 'T'], ['E', 'R', 'R', 'O', 'R'], ['O', 'K']]]

/-- Transcription of the model-name regex, written in the source as
(\d*:\d*:\d*\s*\d*\sof\s*\d*\s*)(OK|START|ERROR)\s([.a-z_0-9 ]*) .
Group 2 is atom 12, group 3 is atom 14. -/
def modelNamePat : List Atom :=
  [.star pyDigit, .str [':'], .star pyDigit, .str [':'], .star pyDigit,
   .star pySpace,
   .star pyDigit, .cls pySpace, .str ['o', 'f'], .star pySpace, .star pyDigit,
   .star pySpace,
   .alts [['O', 'K'], ['S', 'T', 'A', 'R', 'T'], ['E', 'R', 'R', 'O', 'R']],
   .cls pySpace, .star modelChar]

/-- Transcription of the runtime regex, written in the source as
(\sin\s[0-9.]*s[]]) ; the class [] ] holds just the closing bracket.  Group 1
is the whole match. -/
def runtimePat : List Atom :=
  [.cls pySpace, .str ['i', 'n'], .cls pySpace, .star numDot, .str ['s', ']']]

/-- Transcription of the second runtime regex, written in the source as
([0-9.]*s) . -/
def runtimeSecsPat : List Atom := [.star numDot, .str ['s']]

/-- Python str.index as an option: index of the first occurrence of pat. -/
def strIndex (pat : List Char) : List Char → Option Nat
  | [] => if pat.isEmpty then some 0 else none
  | c :: rest =>
    if litAt pat (c :: rest) then some 0
    else (strIndex pat rest).map (· + 1)

/-- Python str.strip() with no argument: drop whitespace from both ends. -/
def pyStrip (l : List Char) : List Char :=
  ((l.dropWhile pySpace).reverse.dropWhile pySpace).reverse

/-- Numeric value of a digit string. -/
def digitsVal (l : List Char) : Nat :=
  l.foldl (fun n c => 10 * n + (c.toNat - 48)) 0

/-- Python int() restricted to the optionally signed digit strings that can
reach it here (none when the text is not a valid integer literal). -/
def pyInt (l : List Char) : Option Int :=
  match pyStrip l with
  | '-' :: ds => if ds ≠ [] && ds.all pyDigit then some (-(digitsVal ds : Int)) else none
  | '+' :: ds => if ds ≠ [] && ds.all pyDigit then some ((digitsVal ds : Int)) else none
  | ds => if ds ≠ [] && ds.all pyDigit then some ((digitsVal ds : Int)) else none

/-- Python float() restricted to the digits-and-dot strings produced by the
[0-9.]* capture: valid when it has at least one digit and at most one dot;
its value is the decimal it denotes, as a rational. -/
def pyFloat (l : List Char) : Option ℚ :=
  if l.all numDot && l.any pyDigit && l.count '.' ≤ 1 then
    let intPart := l.takeWhile (fun c => c ≠ '.')
    let fracPart := (l.dropWhile (fun c => c ≠ '.')).drop 1
    some (mkRat (digitsVal (intPart ++ fracPart) : Int) (10 ^ fracPart.length))
  else none

/-- Python str.rstrip with one char: drop every trailing occurrence. -/
def pyRstrip (c : Char) (l : List Char) : List Char :=
  (l.reverse.dropWhile (· = c)).reverse

/-- Python str.removesuffix with a one-char suffix: drop at most one trailing
occurrence. -/
def pyRemoveSuffix (c : Char) (l : List Char) : List Char :=
  match l.reverse with
  | x :: rest => if x = c then rest.reverse else l
  | [] => l

/-- Exceptions the extraction code can raise. -/
inductive PyErr where
  | valueError
  | attributeError
deriving DecidableEq

instance {ε α : Type} [DecidableEq ε] [DecidableEq α] : DecidableEq (Except ε α) :=
  fun a b =>
    match a, b with
    | .error e, .error f =>
      if h : e = f then .isTrue (by rw [h]) else .isFalse (by intro hh; cases hh; exact h rfl)
    | .ok x, .ok y =>
      if h : x = y then .isTrue (by rw [h]) else .isFalse (by intro hh; cases hh; exact h rfl)
    | .error _, .ok _ => .isFalse (by intro hh; cases hh)
    | .ok _, .error _ => .isFalse (by intro hh; cases hh)

/-- The status enumeration of the source (class Status). -/
inductive Status where
  | UNKNOWN
  | STARTED
  | PASS
  | ERROR
  | COMPLETED
  | COMPLETED_ERROR
deriving DecidableEq

/-- The dataclass DBTModelStatus: the raw line and the stored status. -/
structure DBTModelStatus where
  _raw : String
  _status : Status
deriving DecidableEq

namespace DBTModelStatus

/-- Status extraction performed by the constructor: search the status regex
and map the captured keyword through the chain of ifs. -/
def statusOfRaw (raw : String) : Status :=
  match searchA statusPat raw.toList with
  | none => .UNKNOWN
  | some segs =>
    let kw := segs.getD 12 []
    if kw = ['S', 'T', 'A', 'R', 'T'] then .STARTED
    else if kw = ['O', 'K'] then .PASS
    else if kw = ['E', 'R', 'R', 'O', 'R'] then .ERROR
    else .UNKNOWN

/-- The constructor of the dataclass: store the raw line and extract status. -/
def init (raw : String) : DBTModelStatus :=
  { _raw := raw, _status := statusOfRaw raw }

/-- Getter get_status. -/
def get_status (m : DBTModelStatus) : Status := m._status

/-- Method get_runtime: search the runtime regex; on a match, prepend a bracket
to the group, search the seconds regex inside that text, strip the trailing s
and parse the rest with float() (raising ValueError when it is not a number).
Python returns None, modelled as (.ok none), when the first search fails. -/
def get_runtime (raw : String) : Except PyErr (Option ℚ) :=
  match searchA runtimePat raw.toList with
  | none => .ok none
  | some segs =>
    let g1 := segs.flatten
    let inSecStr := '[' :: g1
    match searchA runtimeSecsPat inSecStr with
    | none => .error .attributeError
    | some segs2 =>
      let grp := segs2.flatten
      let runtimeTxt := pyRstrip 's' grp
      match pyFloat runtimeTxt with
      | none => .error .valueError
      | some q => .ok (some q)

/-- Method get_id: search the line-shape regex; on a match take group 2, cut it
at the first occurrence of the four characters space-o-f-space (str.index
raises ValueError when absent), strip and parse with int(). -/
def get_id (raw : String) : Except PyErr (Option Int) :=
  match searchA modelLinePat raw.toList with
  | none => .ok none
  | some segs =>
    let g2 := segs.getD 6 [] ++ segs.getD 7 [] ++ segs.getD 8 [] ++
      segs.getD 9 [] ++ segs.getD 10 []
    match strIndex [' ', 'o', 'f', ' '] g2 with
    | none => .error .valueError
    | some i =>
      let padded := g2.take i
      match pyInt (pyStrip padded) with
      | none => .error .valueError
      | some n => .ok (some n)

/-- Method get_model: search the model-name regex; on a match return group 3
with one trailing period removed, otherwise None. -/
def get_model (raw : String) : Option (List Char) :=
  match searchA modelNamePat raw.toList with
  | none => none
  | some segs => some (pyRemoveSuffix '.' (segs.getD 14 []))

/-- Classmethod is_a_model_line: anchored re.match of the line-shape regex. -/
def is_a_model_line (txt : String) : Bool :=
  (matchA modelLinePat txt.toList).isSome

end DBTModelStatus

/-- ANSI parameter bytes [0-?] of the escape regex. -/
def ansiParam (c : Char) : Bool := 0x30 ≤ c.toNat && c.toNat ≤ 0x3F

/-- ANSI intermediate bytes, the class written as space-to-slash. -/
def ansiInter (c : Char) : Bool := 0x20 ≤ c.toNat && c.toNat ≤ 0x2F

/-- ANSI final bytes [@-~]. -/
def ansiFinal (c : Char) : Bool := 0x40 ≤ c.toNat && c.toNat ≤ 0x7E

/-- Second byte [@-_] of a two-byte escape introducer. -/
def ansiIntro2 (c : Char) : Bool := 0x40 ≤ c.toNat && c.toNat ≤ 0x5F

/-- Bare C1 control bytes, the introducer alternative [\x80-\x9F]. -/
def ansiC1 (c : Char) : Bool := 0x80 ≤ c.toNat && c.toNat ≤ 0x9F

/-- Suffix left after matching the escape-regex body, a greedy run of
parameter bytes [0-?], then a greedy run of intermediate bytes (space to
slash), then one final byte [@-~], at the start of the input.  The three
classes are pairwise disjoint, so the greedy runs are forced and no
backtracking can occur; the two dropWhile runs are exact. -/
def ansiBodyRest (l : List Char) : Option (List Char) :=
  match (l.dropWhile ansiParam).dropWhile ansiInter with
  | c :: t => if ansiFinal c then some t else none
  | [] => none

/-- Suffix left after matching the whole escape regex, an introducer (either
ESC followed by a byte in [@-_], or a bare C1 byte in \x80-\x9F) followed by
the body, at the start of the input. -/
def ansiRest : List Char → Option (List Char)
  | [] => none
  | [c] => if c = '\x1B' then none else if ansiC1 c then ansiBodyRest [] else none
  | c :: d :: rest2 =>
    if c = '\x1B' then (if ansiIntro2 d then ansiBodyRest rest2 else none)
    else if ansiC1 c then ansiBodyRest (d :: rest2) else none

theorem ansiBodyRest_length {l t : List Char} (h : ansiBodyRest l = some t) :
    t.length < l.length + 1 := by
  have h2 : ((l.dropWhile ansiParam).dropWhile ansiInter).length ≤ l.length :=
    le_trans (List.dropWhile_sublist _).length_le (List.dropWhile_sublist _).length_le
  unfold ansiBodyRest at h
  split at h
  · rename_i c t' hd
    split at h
    · rw [hd] at h2
      simp only [Option.some.injEq] at h
      subst h
      simp at h2
      omega
    · exact absurd h (by simp)
  · exact absurd h (by simp)

theorem ansiRest_length {c : Char} {rest t : List Char}
    (h : ansiRest (c :: rest) = some t) : t.length < rest.length + 1 := by
  rcases rest with _ | ⟨d, rest2⟩
  · simp only [ansiRest] at h
    by_cases he : c = '\x1B'
    · rw [if_pos he] at h
      exact absurd h (by simp)
    · rw [if_neg he] at h
      by_cases hc : ansiC1 c
      · rw [if_pos hc] at h
        simp [ansiBodyRest] at h
      · rw [if_neg hc] at h
        exact absurd h (by simp)
  · simp only [ansiRest] at h
    by_cases he : c = '\x1B'
    · rw [if_pos he] at h
      by_cases hi : ansiIntro2 d
      · rw [if_pos hi] at h
        have := ansiBodyRest_length h
        simp only [List.length_cons]
        omega
      · rw [if_neg hi] at h
        exact absurd h (by simp)
    · rw [if_neg he] at h
      by_cases hc : ansiC1 c
      · rw [if_pos hc] at h
        have := ansiBodyRest_length h
        simpa using this
      · rw [if_neg hc] at h
        exact absurd h (by simp)

/-- The scan of re.sub with fuel: on a match skip to its end, otherwise keep
one character; each step strictly shrinks the text (ansiRest_length), so fuel
equal to the initial length never runs out and the zero-fuel equation is
unreachable.  Fuel keeps the recursion structural, so it reduces in the
kernel. -/
def escGo : Nat → List Char → List Char
  | _, [] => []
  | 0, _ :: _ => []
  | fuel + 1, c :: rest =>
    match ansiRest (c :: rest) with
    | some t => escGo fuel t
    | none => c :: escGo fuel rest

/-- The escape_ansi helper of read_log_models_lines_only: re.sub of the escape
regex with the empty string, i.e. a left-to-right scan removing every
non-overlapping match. -/
def escape_ansi (l : List Char) : List Char := escGo l.length l

/-- String-level escape_ansi. -/
def escapeStr (s : String) : String := ⟨escape_ansi s.toList⟩

/-- The pure core of classmethod read_log_models_lines_only: strip escape
sequences from every line, then keep the lines passing is_a_model_line, in
order.  Reading the file and writing the cleaned side file are I/O wrappers
outside this model. -/
def read_log_models_lines_only (lines : List String) : List String :=
  (lines.map escapeStr).filter DBTModelStatus.is_a_model_line

/-- Classmethod read_log_as_dbt_models_status: one record per line. -/
def read_log_as_dbt_models_status (lines : List String) : List DBTModelStatus :=
  lines.map DBTModelStatus.init

/-- The Python dict used by the consolidator: insertion-ordered association
list with unique keys; the dict key is the result of get_id, so an absent id
(Python None) is the key (none : Option Int). -/
abbrev PyDict : Type := List (Option Int × DBTModelStatus)

/-- Python dict.get(k, None): value of the first (and only) entry with key k. -/
def dictGet : PyDict → Option Int → Option DBTModelStatus
  | [], _ => none
  | (k', v) :: d, k => if k' = k then some v else dictGet d k

/-- Python dict item assignment: replace the value in place when the key is
present (keeping its position), otherwise append a new entry at the end. -/
def dictSet (d : PyDict) (k : Option Int) (v : DBTModelStatus) : PyDict :=
  if d.any (fun p => decide (p.1 = k)) then
    d.map (fun p => if p.1 = k then (p.1, v) else p)
  else d ++ [(k, v)]

/-- The body of the consolidation loop for one already-present id: the two
sequential if statements of the source (the second one tests the possibly
already rewritten status, which cannot be ERROR after the first rewrite, so
they behave like an if/else chain). -/
def mergeStep (mFound m : DBTModelStatus) : DBTModelStatus :=
  let m1 :=
    if mFound._status = .STARTED ∧ m._status = .PASS then { m with _status := .COMPLETED }
    else m
  if mFound._status = .STARTED ∧ m1._status = .ERROR then { m1 with _status := .COMPLETED_ERROR }
  else m1

/-- The consolidation loop with its dict accumulator.  In the source,
`if not m_found` tests the dict.get result: a dataclass instance is always
truthy, so it is a None test. -/
def conGo (d : PyDict) : List DBTModelStatus → Except PyErr PyDict
  | [] => .ok d
  | m :: ms =>
    match DBTModelStatus.get_id m._raw with
    | .error e => .error e
    | .ok k =>
      match dictGet d k with
      | none => conGo (dictSet d k m) ms
      | some f => conGo (dictSet d k (mergeStep f m)) ms

/-- Classmethod consolidate_dbt_models_status. -/
def consolidate_dbt_models_status (ms : List DBTModelStatus) : Except PyErr PyDict :=
  conGo [] ms

/-- The ordering used by the ranker: a may precede b when b's runtime is at
most a's (runtime descending).  Python's sorted with key tup[2] and
reverse=True is a stable sort for exactly this total preorder. -/
def rankLe (a b : Int × List Char × ℚ) : Prop := b.2.2 ≤ a.2.2

instance : DecidableRel rankLe := fun a b => inferInstanceAs (Decidable (b.2.2 ≤ a.2.2))

instance : IsTotal (Int × List Char × ℚ) rankLe := ⟨fun a b => le_total b.2.2 a.2.2⟩

instance : IsTrans (Int × List Char × ℚ) rankLe :=
  ⟨fun _ _ _ hab hbc => le_trans hbc hab⟩

/-- The tuple built for one dict value inside the list comprehension of
top_n_runtime_dbt_models_status: id, model and runtime with 0, the
three-question-marks placeholder and 0 substituted for absent values; the
get_id and get_runtime calls can raise. -/
def rankTuple (v : DBTModelStatus) : Except PyErr (Int × List Char × ℚ) := do
  let i ← DBTModelStatus.get_id v._raw
  let r ← DBTModelStatus.get_runtime v._raw
  pure (i.getD 0, (DBTModelStatus.get_model v._raw).getD ['?', '?', '?'], r.getD 0)

/-- Classmethod top_n_runtime_dbt_models_status: build the tuples over the
dict values in insertion order; stable-sort by runtime descending (modelled by
insertion sort, which computes the unique stable result Python's sorted
produces); return the slice from index 1 up to (excluding) top_n.  For a
natural top_n that slice is: take top_n, then drop the first element. -/
def top_n_runtime_dbt_models_status (d : PyDict) (topN : Nat) :
    Except PyErr (List (Int × List Char × ℚ)) := do
  let vs := d.map (fun p => p.2)
  let tuples ← vs.mapM rankTuple
  let sortedTuples := List.insertionSort rankLe tuples
  pure ((sortedTuples.take topN).drop 1)

/-- The id key a record contributes to the consolidated dict, when its id
extraction does not raise. -/
def idKey? (m : DBTModelStatus) : Option (Option Int) :=
  (DBTModelStatus.get_id m._raw).toOption

/-- All id extractions of the list succeed (no ValueError). -/
def IdsOk (ms : List DBTModelStatus) : Prop :=
  ms.all (fun m => (idKey? m).isSome) = true

/-- All id and runtime extractions over the dict values succeed. -/
def RankOk (d : PyDict) : Prop :=
  d.all (fun p =>
    (DBTModelStatus.get_id p.2._raw).toOption.isSome &&
    (DBTModelStatus.get_runtime p.2._raw).toOption.isSome) = true

/-- The merge rule as the specification states it: a Started representative
upgrades an incoming Pass to Completed and an incoming Error to
CompletedWithError; in every other case the incoming record keeps its status. -/
def specMerge (found m : DBTModelStatus) : DBTModelStatus :=
  if found._status = .STARTED ∧ m._status = .PASS then { m with _status := .COMPLETED }
  else if found._status = .STARTED ∧ m._status = .ERROR then { m with _status := .COMPLETED_ERROR }
  else m

/-- One step of the spec's consolidation narrative: the first record seen
becomes the representative, a later record replaces it after the possible
status upgrade of specMerge. -/
def reprStep (acc : Option DBTModelStatus) (m : DBTModelStatus) : Option DBTModelStatus :=
  match acc with
  | none => some m
  | some f => some (specMerge f m)

/-- Folding the spec's merge rule over the records of one id, in input order. -/
def reprFold (l : List DBTModelStatus) : Option DBTModelStatus :=
  l.foldl reprStep none

/-- The ranked tuple of one record as the specification describes it:
the id with 0 substituted when absent, the model name with a placeholder
substituted when absent, the runtime with 0 substituted when absent. -/
def claimTuple (v : DBTModelStatus) : Int × List Char × ℚ :=
  (((DBTModelStatus.get_id v._raw).toOption.getD none).getD 0,
   (DBTModelStatus.get_model v._raw).getD ['?', '?', '?'],
   ((DBTModelStatus.get_runtime v._raw).toOption.getD none).getD 0)

/-- Declarative semantics of one atom: which segment it may match. -/
def AtomOK : Atom → List Char → Prop
  | .cls c, seg => ∃ x, seg = [x] ∧ c x = true
  | .str l, seg => seg = l
  | .star c, seg => ∀ x ∈ seg, c x = true
  | .alts ls, seg => seg ∈ ls

/-- Declarative semantics of an atom list: segments matched one to one. -/
def SegsOK : List Atom → List (List Char) → Prop := List.Forall₂ AtomOK

/-- Declarative anchored-match semantics: some decomposition of a prefix of
the input into per-atom segments. -/
def Matches (as : List Atom) (s : List Char) : Prop :=
  ∃ segs r, s = segs.flatten ++ r ∧ SegsOK as segs

/-- Declarative search semantics: a match starting at some position. -/
def SearchHit (as : List Atom) (s : List Char) : Prop :=
  ∃ pre rest, s = pre ++ rest ∧ Matches as rest

theorem litAt_iff {l s : List Char} : litAt l s = true ↔ ∃ t, s = l ++ t := by
  induction l generalizing s with
  | nil => simp [litAt]
  | cons a l ih =>
    cases s with
    | nil => simp [litAt]
    | cons b s' =>
      simp only [litAt, Bool.and_eq_true, beq_iff_eq, ih, List.cons_append,
        List.cons.injEq]
      constructor
      · rintro ⟨rfl, t, rfl⟩
        exact ⟨t, rfl, rfl⟩
      · rintro ⟨t, rfl, rfl⟩
        exact ⟨rfl, t, rfl⟩

theorem all_mem_take_of_le_takeWhile (c : Char → Bool) :
    ∀ (s : List Char) (j : Nat), j ≤ (s.takeWhile c).length →
      ∀ x ∈ s.take j, c x = true := by
  intro s
  induction s with
  | nil => intro j _ x hx; simp at hx
  | cons a s' ih =>
    intro j hj x hx
    by_cases ha : c a
    · cases j with
      | zero => simp at hx
      | succ j' =>
        simp only [List.takeWhile_cons, ha, if_true, List.length_cons,
          Nat.succ_le_succ_iff] at hj
        simp only [List.take_succ_cons, List.mem_cons] at hx
        rcases hx with rfl | hx
        · exact ha
        · exact ih j' hj x hx
    · simp only [List.takeWhile_cons, if_neg ha] at hj
      simp only [List.length_nil, Nat.le_zero] at hj
      subst hj
      simp at hx

theorem length_le_takeWhile_of_all {c : Char → Bool} :
    ∀ {t rest : List Char}, (∀ x ∈ t, c x = true) →
      t.length ≤ ((t ++ rest).takeWhile c).length := by
  intro t
  induction t with
  | nil => intro rest _; simp
  | cons a t' ih =>
    intro rest hall
    have ha : c a = true := hall a (by simp)
    simp only [List.cons_append, List.takeWhile_cons, ha, if_true,
      List.length_cons, Nat.succ_le_succ_iff]
    exact ih (fun x hx => hall x (by simp [hx]))

theorem starRun_sound {c : Char → Bool} {as : List Atom} {s : List Char}
    (ih : ∀ {s segs r}, matchA as s = some (segs, r) →
      s = segs.flatten ++ r ∧ SegsOK as segs) :
    ∀ {k segs r}, k ≤ (s.takeWhile c).length →
      starRun (fun t => matchA as t) s k = some (segs, r) →
      s = segs.flatten ++ r ∧ SegsOK (.star c :: as) segs := by
  intro k
  induction k with
  | zero =>
    intro segs r _ h
    simp only [starRun] at h
    split at h
    · rename_i segs0 r0 hm
      simp only [Option.some.injEq, Prod.mk.injEq] at h
      obtain ⟨rfl, rfl⟩ := h
      obtain ⟨hs, hok⟩ := ih hm
      refine ⟨by simpa using hs, ?_⟩
      exact List.Forall₂.cons (by intro x hx; simp at hx) hok
    · exact absurd h (by simp)
  | succ k ihk =>
    intro segs r hk h
    simp only [starRun] at h
    split at h
    · rename_i segs0 r0 hm
      simp only [Option.some.injEq, Prod.mk.injEq] at h
      obtain ⟨rfl, rfl⟩ := h
      obtain ⟨hs, hok⟩ := ih hm
      constructor
      · conv_lhs => rw [← List.take_append_drop (k + 1) s]
        rw [hs]
        simp [List.append_assoc]
      · refine List.Forall₂.cons ?_ hok
        intro x hx
        exact all_mem_take_of_le_takeWhile c s (k + 1) hk x hx
    · exact ihk (Nat.le_of_succ_le hk) h

theorem altRun_sound {as : List Atom} {s : List Char}
    (ih : ∀ {s segs r}, matchA as s = some (segs, r) →
      s = segs.flatten ++ r ∧ SegsOK as segs) :
    ∀ {ls segs r}, altRun (fun t => matchA as t) ls s = some (segs, r) →
      s = segs.flatten ++ r ∧ SegsOK (.alts ls :: as) segs := by
  intro ls
  induction ls with
  | nil => intro segs r h; exact absurd h (by simp [altRun])
  | cons l ls ihl =>
    intro segs r h
    simp only [altRun] at h
    split at h
    · rename_i hlit
      split at h
      · rename_i segs0 r0 hm
        simp only [Option.some.injEq, Prod.mk.injEq] at h
        obtain ⟨rfl, rfl⟩ := h
        obtain ⟨t, rfl⟩ := litAt_iff.mp hlit
        rw [List.drop_left] at hm
        obtain ⟨hs, hok⟩ := ih hm
        refine ⟨by simp [hs, List.append_assoc], ?_⟩
        exact List.Forall₂.cons (by simp [AtomOK]) hok
      · rename_i hm
        obtain ⟨hs, hok⟩ := ihl h
        refine ⟨hs, ?_⟩
        cases hok with
        | cons hseg hrest =>
          exact List.Forall₂.cons (by simp [AtomOK] at hseg ⊢; exact .inr hseg) hrest
    · obtain ⟨hs, hok⟩ := ihl h
      refine ⟨hs, ?_⟩
      cases hok with
      | cons hseg hrest =>
        exact List.Forall₂.cons (by simp [AtomOK] at hseg ⊢; exact .inr hseg) hrest

theorem matchA_sound : ∀ {as : List Atom} {s segs r},
    matchA as s = some (segs, r) → s = segs.flatten ++ r ∧ SegsOK as segs := by
  intro as
  induction as with
  | nil =>
    intro s segs r h
    simp only [matchA, Option.some.injEq, Prod.mk.injEq] at h
    obtain ⟨rfl, rfl⟩ := h
    exact ⟨by simp, List.Forall₂.nil⟩
  | cons a as ih =>
    cases a with
    | cls c =>
      intro s segs r h
      cases s with
      | nil => simp [matchA] at h
      | cons x s' =>
        simp only [matchA] at h
        split at h
        · rename_i hc
          split at h
          · rename_i segs0 r0 hm
            simp only [Option.some.injEq, Prod.mk.injEq] at h
            obtain ⟨rfl, rfl⟩ := h
            obtain ⟨hs, hok⟩ := ih hm
            refine ⟨by simp [hs], ?_⟩
            exact List.Forall₂.cons ⟨x, rfl, hc⟩ hok
          · exact absurd h (by simp)
        · exact absurd h (by simp)
    | str l =>
      intro s segs r h
      simp only [matchA] at h
      split at h
      · rename_i hlit
        split at h
        · rename_i segs0 r0 hm
          simp only [Option.some.injEq, Prod.mk.injEq] at h
          obtain ⟨rfl, rfl⟩ := h
          obtain ⟨t, rfl⟩ := litAt_iff.mp hlit
          rw [List.drop_left] at hm
          obtain ⟨hs, hok⟩ := ih hm
          refine ⟨by simp [hs, List.append_assoc], ?_⟩
          exact List.Forall₂.cons rfl hok
        · exact absurd h (by simp)
      · exact absurd h (by simp)
    | alts ls =>
      intro s segs r h
      simp only [matchA] at h
      exact altRun_sound (fun h => ih h) h
    | star c =>
      intro s segs r h
      simp only [matchA] at h
      exact starRun_sound (fun h => ih h) (Nat.le_refl _) h

theorem starRun_complete {as : List Atom} {s : List Char} :
    ∀ n k, k ≤ n → (matchA as (s.drop k)).isSome = true →
      (starRun (fun t => matchA as t) s n).isSome = true := by
  intro n
  induction n with
  | zero =>
    intro k hk hm
    interval_cases k
    simp only [List.drop_zero] at hm
    cases hmm : matchA as s with
    | none => rw [hmm] at hm; simp at hm
    | some v => simp [starRun, hmm]
  | succ n ihn =>
    intro k hk hm
    cases hmm : matchA as (s.drop (n + 1)) with
    | some v => simp [starRun, hmm]
    | none =>
      have hk' : k ≤ n := by
        rcases Nat.lt_or_ge k (n + 1) with h | h
        · omega
        · exfalso
          have : k = n + 1 := by omega
          subst this
          rw [hmm] at hm
          simp at hm
      have := ihn k hk' hm
      cases hv : starRun (fun t => matchA as t) s n with
      | none => rw [hv] at this; simp at this
      | some v => simp [starRun, hmm, hv]

theorem altRun_complete {as : List Atom} {s : List Char} :
    ∀ ls l, l ∈ ls → litAt l s = true →
      (matchA as (s.drop l.length)).isSome = true →
      (altRun (fun t => matchA as t) ls s).isSome = true := by
  intro ls
  induction ls with
  | nil => intro l hl; simp at hl
  | cons l' ls' ih =>
    intro l hl hlit hm
    by_cases hl' : litAt l' s = true
    · cases hmm : matchA as (s.drop l'.length) with
      | some v => simp [altRun, hl', hmm]
      | none =>
        have hne : l ≠ l' := by
          intro he
          subst he
          rw [hmm] at hm
          simp at hm
        have hmem : l ∈ ls' := by
          rcases List.mem_cons.mp hl with he | hmem
          · exact absurd he hne
          · exact hmem
        have := ih l hmem hlit hm
        cases hv : altRun (fun t => matchA as t) ls' s with
        | none => rw [hv] at this; simp at this
        | some v => simp [altRun, hl', hmm, hv]
    · have hne : l ≠ l' := by
        intro he
        subst he
        exact hl' hlit
      have hmem : l ∈ ls' := by
        rcases List.mem_cons.mp hl with he | hmem
        · exact absurd he hne
        · exact hmem
      have := ih l hmem hlit hm
      cases hv : altRun (fun t => matchA as t) ls' s with
      | none => rw [hv] at this; simp at this
      | some v => simp [altRun, hl', hv]

theorem matchA_complete : ∀ {as : List Atom} {segs : List (List Char)}
    {r s : List Char}, SegsOK as segs → s = segs.flatten ++ r →
    (matchA as s).isSome = true := by
  intro as
  induction as with
  | nil =>
    intro segs r s hok hs
    simp [matchA]
  | cons a as ih =>
    intro segs r s hok hs
    cases hok with
    | cons hseg hrest =>
      rename_i seg segs'
      cases a with
      | cls c =>
        obtain ⟨x, rfl, hc⟩ := hseg
        subst hs
        have hih := ih (r := r) hrest rfl
        cases hm : matchA as (segs'.flatten ++ r) with
        | none => rw [hm] at hih; simp at hih
        | some v =>
          simp only [List.flatten_cons, List.singleton_append]
          simp [matchA, hc, hm]
      | str l =>
        have hseg' : seg = l := hseg
        subst hseg'
        subst hs
        have hih := ih (r := r) hrest rfl
        have hlit : litAt seg (seg ++ (segs'.flatten ++ r)) = true :=
          litAt_iff.mpr ⟨_, rfl⟩
        cases hm : matchA as (segs'.flatten ++ r) with
        | none => rw [hm] at hih; simp at hih
        | some v =>
          have harr : (List.flatten (seg :: segs') ++ r) = seg ++ (segs'.flatten ++ r) := by
            simp [List.append_assoc]
          rw [harr]
          simp [matchA, hlit, List.drop_left, hm]
      | star c =>
        subst hs
        have hih := ih (r := r) hrest rfl
        have harr : (List.flatten (seg :: segs') ++ r) = seg ++ (segs'.flatten ++ r) := by
          simp [List.append_assoc]
        rw [harr]
        simp only [matchA]
        refine starRun_complete _ seg.length ?_ ?_
        · exact length_le_takeWhile_of_all hseg
        · rw [List.drop_left]
          exact hih
      | alts ls =>
        subst hs
        have hih := ih (r := r) hrest rfl
        have hmem : seg ∈ ls := hseg
        have harr : (List.flatten (seg :: segs') ++ r) = seg ++ (segs'.flatten ++ r) := by
          simp [List.append_assoc]
        rw [harr]
        simp only [matchA]
        refine altRun_complete _ seg hmem (litAt_iff.mpr ⟨_, rfl⟩) ?_
        rw [List.drop_left]
        exact hih

theorem matchA_isSome_iff {as : List Atom} {s : List Char} :
    (matchA as s).isSome = true ↔ Matches as s := by
  constructor
  · intro h
    cases hm : matchA as s with
    | none => rw [hm] at h; simp at h
    | some v =>
      obtain ⟨hs, hok⟩ := @matchA_sound as s v.1 v.2 (by rw [hm])
      exact ⟨v.1, v.2, hs, hok⟩
  · rintro ⟨segs, r, hs, hok⟩
    exact matchA_complete hok hs

theorem searchA_eq_some {as : List Atom} : ∀ {s : List Char} {segs : List (List Char)},
    searchA as s = some segs →
    ∃ pre rest r, s = pre ++ rest ∧ matchA as rest = some (segs, r) := by
  intro s
  induction s with
  | nil =>
    intro segs h
    simp only [searchA.eq_def] at h
    cases hm : matchA as [] with
    | none => rw [hm] at h; simp at h
    | some v =>
      obtain ⟨segs0, r0⟩ := v
      rw [hm] at h
      simp at h
      subst h
      exact ⟨[], [], r0, rfl, hm⟩
  | cons c s' ih =>
    intro segs h
    simp only [searchA] at h
    split at h
    · rename_i segs0 r0 hm
      injection h with h
      subst h
      exact ⟨[], c :: s', r0, rfl, hm⟩
    · obtain ⟨pre, rest, r, heq, hm⟩ := ih h
      exact ⟨c :: pre, rest, r, by simp [heq], hm⟩

theorem searchA_isSome_of {as : List Atom} :
    ∀ (pre rest s : List Char), (matchA as rest).isSome = true →
      s = pre ++ rest → (searchA as s).isSome = true := by
  intro pre
  induction pre with
  | nil =>
    intro rest s hm hs
    simp only [List.nil_append] at hs
    rw [hs]
    cases rest with
    | nil =>
      rw [searchA.eq_def]
      simpa using hm
    | cons c s' =>
      simp only [searchA]
      split
      · simp
      · rename_i hnone
        rw [hnone] at hm
        simp at hm
  | cons p pre' ih =>
    intro rest s hm hs
    subst hs
    simp only [List.cons_append, searchA]
    split
    · simp
    · exact ih rest (pre' ++ rest) hm rfl

theorem searchA_isSome_iff {as : List Atom} {s : List Char} :
    (searchA as s).isSome = true ↔ SearchHit as s := by
  constructor
  · intro h
    cases hv : searchA as s with
    | none => rw [hv] at h; simp at h
    | some segs =>
      obtain ⟨pre, rest, r, heq, hm⟩ := searchA_eq_some hv
      refine ⟨pre, rest, heq, ?_⟩
      obtain ⟨hs, hok⟩ := matchA_sound hm
      exact ⟨segs, r, hs, hok⟩
  · rintro ⟨pre, rest, rfl, hmat⟩
    exact searchA_isSome_of pre rest _ (matchA_isSome_iff.mpr hmat) rfl

theorem searchA_none_iff {as : List Atom} {s : List Char} :
    searchA as s = none ↔ ¬ SearchHit as s := by
  rw [← searchA_isSome_iff]
  cases searchA as s <;> simp

theorem take_takeWhile_length (c : Char → Bool) (s : List Char) :
    s.take ((s.takeWhile c).length) = s.takeWhile c := by
  have h := List.take_left (s.takeWhile c) (s.dropWhile c)
  rw [List.takeWhile_append_dropWhile] at h
  exact h

theorem drop_takeWhile_length (c : Char → Bool) (s : List Char) :
    s.drop ((s.takeWhile c).length) = s.dropWhile c := by
  have h := List.drop_left (s.takeWhile c) (s.dropWhile c)
  rw [List.takeWhile_append_dropWhile] at h
  exact h

theorem starRun_ext {c : Char → Bool} {as : List Atom}
    (ih : ∀ s, matchA (as ++ [.star c]) s = (matchA as s).map
      (fun p => (p.1 ++ [p.2.takeWhile c], p.2.dropWhile c))) (s : List Char) :
    ∀ k, starRun (fun t => matchA (as ++ [.star c]) t) s k =
      (starRun (fun t => matchA as t) s k).map
      (fun p => (p.1 ++ [p.2.takeWhile c], p.2.dropWhile c)) := by
  intro k
  induction k with
  | zero =>
    simp only [starRun, ih s]
    cases matchA as s with
    | none => simp
    | some v => simp
  | succ k ihk =>
    simp only [starRun, ih (s.drop (k + 1))]
    cases matchA as (s.drop (k + 1)) with
    | none => simpa using ihk
    | some v => simp

theorem altRun_ext {c : Char → Bool} {as : List Atom}
    (ih : ∀ s, matchA (as ++ [.star c]) s = (matchA as s).map
      (fun p => (p.1 ++ [p.2.takeWhile c], p.2.dropWhile c))) :
    ∀ (ls : List (List Char)) (s : List Char),
      altRun (fun t => matchA (as ++ [.star c]) t) ls s =
        (altRun (fun t => matchA as t) ls s).map
        (fun p => (p.1 ++ [p.2.takeWhile c], p.2.dropWhile c)) := by
  intro ls
  induction ls with
  | nil => intro s; simp [altRun]
  | cons l ls' ihl =>
    intro s
    simp only [altRun]
    by_cases hl : litAt l s = true
    · rw [if_pos hl, if_pos hl, ih (s.drop l.length)]
      cases matchA as (s.drop l.length) with
      | none => simpa using ihl s
      | some v => simp
    · rw [if_neg hl, if_neg hl]
      exact ihl s

theorem matchA_append_star (c : Char → Bool) :
    ∀ (as : List Atom) (s : List Char),
      matchA (as ++ [.star c]) s = (matchA as s).map
        (fun p => (p.1 ++ [p.2.takeWhile c], p.2.dropWhile c)) := by
  intro as
  induction as with
  | nil =>
    intro s
    simp only [List.nil_append, matchA]
    cases hn : (s.takeWhile c).length with
    | zero =>
      have htw : s.takeWhile c = [] := List.length_eq_zero.mp hn
      have hdw : s.dropWhile c = s := by
        have h2 := List.takeWhile_append_dropWhile (p := c) (l := s)
        rw [htw] at h2
        simpa using h2
      simp [starRun, matchA, htw, hdw]
    | succ k =>
      simp only [starRun, matchA, Option.map_some]
      rw [← hn, take_takeWhile_length, drop_takeWhile_length]
      simp
  | cons a as ih =>
    intro s
    cases a with
    | cls c' =>
      cases s with
      | nil => simp [matchA]
      | cons x s' =>
        simp only [List.cons_append, matchA, List.append_eq]
        by_cases hc : c' x = true
        · rw [if_pos hc, if_pos hc, ih s']
          cases matchA as s' with
          | none => simp
          | some v => simp
        · rw [if_neg hc, if_neg hc]
          simp
    | str l =>
      simp only [List.cons_append, matchA, List.append_eq]
      by_cases hl : litAt l s = true
      · rw [if_pos hl, if_pos hl, ih (s.drop l.length)]
        cases matchA as (s.drop l.length) with
        | none => simp
        | some v => simp
      · rw [if_neg hl, if_neg hl]
        simp
    | alts ls =>
      simp only [List.cons_append, matchA]
      exact altRun_ext ih ls s
    | star c'' =>
      simp only [List.cons_append, matchA]
      exact starRun_ext ih s _

theorem dictGet_nil {k : Option Int} : dictGet [] k = none := rfl

theorem dictGet_cons {k0 k : Option Int} {v0 : DBTModelStatus} {d : PyDict} :
    dictGet ((k0, v0) :: d) k = if k0 = k then some v0 else dictGet d k := rfl

theorem dictGet_of_not_mem {d : PyDict} {k k' : Option Int} {v : DBTModelStatus}
    (hk : ∀ p ∈ d, p.1 ≠ k) :
    dictGet (d ++ [(k, v)]) k' = if k' = k then some v else dictGet d k' := by
  induction d with
  | nil =>
    rw [List.nil_append, dictGet_cons, dictGet_nil]
    by_cases h : k' = k
    · rw [if_pos h.symm, if_pos h]
    · rw [if_neg (fun he => h he.symm), if_neg h]
  | cons p d ih =>
    obtain ⟨k0, v0⟩ := p
    have hk0 : k0 ≠ k := hk (k0, v0) (by simp)
    have ih' := ih (fun p hp => hk p (by simp [hp]))
    rw [List.cons_append, dictGet_cons, dictGet_cons, ih']
    by_cases h0 : k0 = k'
    · rw [if_pos h0, if_pos h0, if_neg (fun he => hk0 (h0.trans he))]
    · rw [if_neg h0, if_neg h0]

theorem dictGet_map_update {d : PyDict} {k : Option Int} {v : DBTModelStatus} :
    ∀ k', dictGet (d.map (fun p => if p.1 = k then (p.1, v) else p)) k' =
      if k' = k then (dictGet d k).map (fun _ => v) else dictGet d k' := by
  induction d with
  | nil =>
    intro k'
    by_cases h : k' = k
    · rw [List.map_nil, dictGet_nil, if_pos h, dictGet_nil]
      rfl
    · rw [List.map_nil, dictGet_nil, if_neg h]
  | cons p d ih =>
    intro k'
    obtain ⟨k0, v0⟩ := p
    dsimp only [List.map_cons]
    by_cases h0 : k0 = k
    · by_cases hk' : k' = k
      · have e1 : k0 = k' := h0.trans hk'.symm
        simp [dictGet_cons, ih, h0, hk', e1]
      · have e1 : ¬ k0 = k' := fun he => hk' (he.symm.trans h0)
        have e2 : ¬ k = k' := fun he => hk' he.symm
        simp [dictGet_cons, ih, h0, hk', e1, e2]
    · by_cases hk' : k' = k
      · have e1 : ¬ k0 = k' := fun he => h0 (he.trans hk')
        simp [dictGet_cons, ih, h0, hk', e1]
      · simp [dictGet_cons, ih, h0, hk']

theorem dictGet_isSome_of_any {d : PyDict} {k : Option Int}
    (h : d.any (fun p => decide (p.1 = k)) = true) : (dictGet d k).isSome = true := by
  induction d with
  | nil => simp at h
  | cons p d ih =>
    obtain ⟨k0, v0⟩ := p
    simp only [List.any_cons, Bool.or_eq_true, decide_eq_true_eq] at h
    by_cases h0 : k0 = k
    · rw [dictGet_cons, if_pos h0]
      rfl
    · rw [dictGet_cons, if_neg h0]
      rcases h with h | h
      · exact absurd h h0
      · exact ih h

theorem dictGet_dictSet {d : PyDict} {k k' : Option Int} {v : DBTModelStatus} :
    dictGet (dictSet d k v) k' = if k' = k then some v else dictGet d k' := by
  unfold dictSet
  by_cases hmem : d.any (fun p => decide (p.1 = k)) = true
  · rw [if_pos hmem, dictGet_map_update k']
    by_cases hk' : k' = k
    · rw [if_pos hk', if_pos hk']
      have hsome := dictGet_isSome_of_any hmem
      cases hv : dictGet d k with
      | none => rw [hv] at hsome; simp at hsome
      | some w => rfl
    · rw [if_neg hk', if_neg hk']
  · rw [if_neg hmem]
    have hk : ∀ p ∈ d, p.1 ≠ k := by
      intro p hp he
      exact hmem (List.any_eq_true.mpr ⟨p, hp, by simp [he]⟩)
    exact dictGet_of_not_mem hk

theorem mergeStep_eq_specMerge (f m : DBTModelStatus) :
    mergeStep f m = specMerge f m := by
  unfold mergeStep specMerge
  by_cases h1 : f._status = .STARTED ∧ m._status = .PASS
  · simp [h1, h1.1]
  · by_cases h2 : f._status = .STARTED ∧ m._status = .ERROR
    · simp [h1, h2]
    · simp [h1, h2]

theorem conGo_lookup : ∀ (ms : List DBTModelStatus) (d : PyDict), IdsOk ms →
    ∃ d', conGo d ms = .ok d' ∧
      ∀ k, dictGet d' k =
        (ms.filter (fun m => decide (idKey? m = some k))).foldl reprStep (dictGet d k) := by
  intro ms
  induction ms with
  | nil =>
    intro d _
    exact ⟨d, rfl, fun k => by simp⟩
  | cons m ms ih =>
    intro d hok
    have hok' : IdsOk ms := by
      unfold IdsOk at hok ⊢
      simp only [List.all_cons, Bool.and_eq_true] at hok
      exact hok.2
    have hm : (idKey? m).isSome = true := by
      unfold IdsOk at hok
      simp only [List.all_cons, Bool.and_eq_true] at hok
      exact hok.1
    cases hk0 : idKey? m with
    | none => rw [hk0] at hm; simp at hm
    | some k0 =>
      have hgid : DBTModelStatus.get_id m._raw = .ok k0 := by
        unfold idKey? at hk0
        cases hg : DBTModelStatus.get_id m._raw with
        | error e => rw [hg] at hk0; simp [Except.toOption] at hk0
        | ok v =>
          rw [hg] at hk0
          simp [Except.toOption] at hk0
          rw [hk0]
      have hfilter : ∀ k, (m :: ms).filter (fun m => decide (idKey? m = some k)) =
          if k0 = k then m :: ms.filter (fun m => decide (idKey? m = some k))
          else ms.filter (fun m => decide (idKey? m = some k)) := by
        intro k
        by_cases hk : k0 = k
        · rw [if_pos hk, List.filter_cons, if_pos (by rw [hk0, hk]; simp)]
        · rw [if_neg hk, List.filter_cons,
            if_neg (by rw [hk0]; simpa using hk)]
      cases hf : dictGet d k0 with
      | none =>
        obtain ⟨d', hd', hget⟩ := ih (dictSet d k0 m) hok'
        refine ⟨d', ?_, ?_⟩
        · simp [conGo, hgid, hf, hd']
        · intro k
          rw [hget k, dictGet_dictSet, hfilter k]
          by_cases hk : k0 = k
          · rw [if_pos hk, if_pos hk.symm, List.foldl_cons]
            rw [← hk, hf]
            rfl
          · rw [if_neg hk, if_neg (fun he => hk he.symm)]
      | some f =>
        obtain ⟨d', hd', hget⟩ := ih (dictSet d k0 (mergeStep f m)) hok'
        refine ⟨d', ?_, ?_⟩
        · simp [conGo, hgid, hf, hd']
        · intro k
          rw [hget k, dictGet_dictSet, hfilter k]
          by_cases hk : k0 = k
          · rw [if_pos hk, if_pos hk.symm, List.foldl_cons]
            rw [← hk, hf, mergeStep_eq_specMerge]
            rfl
          · rw [if_neg hk, if_neg (fun he => hk he.symm)]

theorem specMerge_cases (f m : DBTModelStatus) :
    specMerge f m = m ∨ specMerge f m = { m with _status := .COMPLETED } ∨
      specMerge f m = { m with _status := .COMPLETED_ERROR } := by
  unfold specMerge
  by_cases h1 : f._status = .STARTED ∧ m._status = .PASS
  · rw [if_pos h1]
    exact .inr (.inl rfl)
  · rw [if_neg h1]
    by_cases h2 : f._status = .STARTED ∧ m._status = .ERROR
    · rw [if_pos h2]
      exact .inr (.inr rfl)
    · rw [if_neg h2]
      exact .inl rfl

theorem foldl_reprStep_last :
    ∀ (l : List DBTModelStatus) (init : Option DBTModelStatus) (r : DBTModelStatus),
      l.foldl reprStep init = some r →
      (l = [] ∧ init = some r) ∨
      ∃ m, l.getLast? = some m ∧
        (r = m ∨ r = { m with _status := .COMPLETED } ∨
          r = { m with _status := .COMPLETED_ERROR }) := by
  intro l
  induction l with
  | nil => intro init r h; exact .inl ⟨rfl, h⟩
  | cons m l ih =>
    intro init r h
    rw [List.foldl_cons] at h
    rcases ih (reprStep init m) r h with ⟨hl, hinit⟩ | ⟨m', hlast, hcases⟩
    · subst hl
      right
      refine ⟨m, by simp, ?_⟩
      cases init with
      | none =>
        simp [reprStep] at hinit
        exact .inl hinit.symm
      | some f =>
        simp [reprStep] at hinit
        rw [← hinit]
        exact specMerge_cases f m
    · right
      have hne : l ≠ [] := by
        intro he
        subst he
        simp at hlast
      cases l with
      | nil => exact absurd rfl hne
      | cons b l' =>
        refine ⟨m', ?_, hcases⟩
        rw [List.getLast?_cons_cons]
        exact hlast

/-- C1: over a record list whose id extractions all succeed, consolidation
produces, for every id key, exactly the spec's left fold of the merge rule
(Started plus Pass upgrades the incoming record to Completed, Started plus
Error to CompletedWithError, in every other case the incoming record keeps
its status) over the records bearing that id, and the representative stored
for a key is always the most-recently-processed record with that id, with at
most that status upgrade applied. -/
theorem c1_consolidation (ms : List DBTModelStatus) (h : IdsOk ms) :
    ∃ d, consolidate_dbt_models_status ms = .ok d ∧
      (∀ k, dictGet d k =
        (ms.filter (fun m => decide (idKey? m = some k))).foldl reprStep none) ∧
      (∀ k r, dictGet d k = some r →
        ∃ m, (ms.filter (fun m => decide (idKey? m = some k))).getLast? = some m ∧
          (r = m ∨ r = { m with _status := .COMPLETED } ∨
            r = { m with _status := .COMPLETED_ERROR })) := by
  obtain ⟨d, hd, hget⟩ := conGo_lookup ms [] h
  refine ⟨d, hd, fun k => by rw [hget k]; rfl, ?_⟩
  intro k r hr
  rw [hget k] at hr
  rcases foldl_reprStep_last _ _ _ hr with ⟨hl, hinit⟩ | ⟨m, hlast, hcases⟩
  · rw [dictGet_nil] at hinit
    exact absurd hinit (by simp)
  · exact ⟨m, hlast, hcases⟩

/-- Sample START line from the module docstring. -/
def exStartLine : String :=
  "05:56:24  5 of 135 START table model schema.some_model ........................ [RUN]"

/-- Sample OK line from the module docstring. -/
def exOkLine : String :=
  "05:56:36  5 of 135 OK created table model schema.some_model ................... [SELECT in 11.69s]"

/-- The records parsed from the two sample lines. -/
def exRecords : List DBTModelStatus :=
  read_log_as_dbt_models_status [exStartLine, exOkLine]

/-- Witness for c1_consolidation at the two docstring sample lines. -/
theorem c1_consolidation_witness :
    IdsOk exRecords ∧
    ∃ d, consolidate_dbt_models_status exRecords = .ok d ∧
      (∀ k, dictGet d k =
        (exRecords.filter (fun m => decide (idKey? m = some k))).foldl reprStep none) ∧
      (∀ k r, dictGet d k = some r →
        ∃ m, (exRecords.filter (fun m => decide (idKey? m = some k))).getLast? = some m ∧
          (r = m ∨ r = { m with _status := .COMPLETED } ∨
            r = { m with _status := .COMPLETED_ERROR })) :=
  ⟨by unfold IdsOk; rfl, c1_consolidation exRecords (by unfold IdsOk; rfl)⟩

theorem keys_map_update (d : PyDict) (k : Option Int) (v : DBTModelStatus) :
    (d.map (fun p => if p.1 = k then (p.1, v) else p)).map Prod.fst =
      d.map Prod.fst := by
  induction d with
  | nil => rfl
  | cons p d ih =>
    obtain ⟨k0, v0⟩ := p
    by_cases h : k0 = k <;> simp [h, ih]

theorem keys_dictSet_nodup {d : PyDict} {k : Option Int} {v : DBTModelStatus}
    (h : (d.map Prod.fst).Nodup) : ((dictSet d k v).map Prod.fst).Nodup := by
  unfold dictSet
  by_cases hmem : d.any (fun p => decide (p.1 = k)) = true
  · rw [if_pos hmem, keys_map_update]
    exact h
  · rw [if_neg hmem]
    have hknotin : k ∉ d.map Prod.fst := by
      intro hmem'
      obtain ⟨p, hp, hpk⟩ := List.mem_map.mp hmem'
      exact hmem (List.any_eq_true.mpr ⟨p, hp, by simp [hpk]⟩)
    rw [List.map_append]
    simp only [List.map_cons, List.map_nil]
    rw [List.nodup_append]
    refine ⟨h, List.nodup_singleton k, ?_⟩
    intro a ha hak
    simp only [List.mem_singleton] at hak
    subst hak
    exact hknotin ha

theorem conGo_keys_nodup : ∀ (ms : List DBTModelStatus) (d d' : PyDict),
    conGo d ms = .ok d' → (d.map Prod.fst).Nodup → (d'.map Prod.fst).Nodup := by
  intro ms
  induction ms with
  | nil =>
    intro d d' h hn
    simp only [conGo, Except.ok.injEq] at h
    subst h
    exact hn
  | cons m ms ih =>
    intro d d' h hn
    simp only [conGo] at h
    split at h
    · exact absurd h (by simp)
    · rename_i k hk
      split at h
      · exact ih _ _ h (keys_dictSet_nodup hn)
      · exact ih _ _ h (keys_dictSet_nodup hn)

theorem filter_key_len_le_one {d : PyDict} (h : (d.map Prod.fst).Nodup)
    (k : Option Int) :
    (d.filter (fun p => decide (p.1 = k))).length ≤ 1 := by
  induction d with
  | nil => simp
  | cons p d ih =>
    obtain ⟨k0, v0⟩ := p
    simp only [List.map_cons, List.nodup_cons] at h
    obtain ⟨hnotin, hn⟩ := h
    by_cases h0 : k0 = k
    · rw [List.filter_cons, if_pos (by simp [h0])]
      have hnilf : d.filter (fun p => decide (p.1 = k)) = [] := by
        rw [List.filter_eq_nil_iff]
        intro p hp
        simp only [decide_eq_true_eq]
        intro hpk
        exact hnotin (by rw [← h0] at hpk; exact List.mem_map.mpr ⟨p, hp, hpk⟩)
      rw [hnilf]
      simp
    · rw [List.filter_cons, if_neg (by simp [h0])]
      exact ih hn

/-- C9: the consolidator keys its dict on the result of id extraction, so the
absent id (Python None) is itself a key: the consolidated dict holds at most
one entry whose key is the absent id, and the representative stored under that
key is the spec's merge-rule fold over exactly the records whose id extraction
returned absent, each later id-less record replacing the previous one. -/
theorem c9_absent_id_single_key (ms : List DBTModelStatus) (h : IdsOk ms) :
    ∃ d, consolidate_dbt_models_status ms = .ok d ∧
      (d.filter (fun p => decide (p.1 = (none : Option Int)))).length ≤ 1 ∧
      dictGet d none =
        (ms.filter
          (fun m => decide (idKey? m = some (none : Option Int)))).foldl reprStep none := by
  obtain ⟨d, hd, hget⟩ := conGo_lookup ms [] h
  refine ⟨d, hd, ?_, ?_⟩
  · have hn : (d.map Prod.fst).Nodup :=
      conGo_keys_nodup ms [] d hd (by simp)
    exact filter_key_len_le_one hn none
  · rw [hget none]
    rfl

/-- Two raw lines with no id shape at all, plus one line bearing an id. -/
def exNoIdRecords : List DBTModelStatus :=
  read_log_as_dbt_models_status
    ["no shape here A", "05:57:01  9 of 135 START other_model", "no shape here B"]

/-- Witness for c9_absent_id_single_key: both id-less records share the
single absent-id key and the later one is the stored representative. -/
theorem c9_absent_id_single_key_witness :
    IdsOk exNoIdRecords ∧
    ∃ d, consolidate_dbt_models_status exNoIdRecords = .ok d ∧
      (d.filter (fun p => decide (p.1 = (none : Option Int)))).length ≤ 1 ∧
      dictGet d none =
        (exNoIdRecords.filter
          (fun m => decide (idKey? m = some (none : Option Int)))).foldl reprStep none :=
  ⟨by unfold IdsOk; rfl, c9_absent_id_single_key exNoIdRecords (by unfold IdsOk; rfl)⟩

theorem rankTuple_ok {v : DBTModelStatus}
    (hi : (DBTModelStatus.get_id v._raw).toOption.isSome = true)
    (hr : (DBTModelStatus.get_runtime v._raw).toOption.isSome = true) :
    rankTuple v = .ok (claimTuple v) := by
  cases hgi : DBTModelStatus.get_id v._raw with
  | error e => rw [hgi] at hi; simp [Except.toOption] at hi
  | ok i =>
    cases hgr : DBTModelStatus.get_runtime v._raw with
    | error e => rw [hgr] at hr; simp [Except.toOption] at hr
    | ok r =>
      unfold rankTuple claimTuple
      rw [hgi, hgr]
      rfl

theorem mapM_rankTuple_ok : ∀ (l : List DBTModelStatus),
    (∀ v ∈ l, (DBTModelStatus.get_id v._raw).toOption.isSome = true ∧
      (DBTModelStatus.get_runtime v._raw).toOption.isSome = true) →
    l.mapM rankTuple = .ok (l.map claimTuple) := by
  intro l
  induction l with
  | nil => intro _; rfl
  | cons v l ih =>
    intro hall
    have hv := hall v (by simp)
    have hl : ∀ w ∈ l,
        (DBTModelStatus.get_id w._raw).toOption.isSome = true ∧
        (DBTModelStatus.get_runtime w._raw).toOption.isSome = true :=
      fun w hw => hall w (by simp [hw])
    rw [List.mapM_cons, rankTuple_ok hv.1 hv.2, ih hl]
    rfl

theorem filter_orderedInsert (q : ℚ) (x : Int × List Char × ℚ) :
    ∀ l, (List.orderedInsert rankLe x l).filter (fun t => decide (t.2.2 = q)) =
      (x :: l).filter (fun t => decide (t.2.2 = q)) := by
  intro l
  induction l with
  | nil => simp [List.orderedInsert]
  | cons y l ih =>
    simp only [List.orderedInsert]
    by_cases hxy : rankLe x y
    · rw [if_pos hxy]
    · rw [if_neg hxy]
      have hlt : x.2.2 < y.2.2 := lt_of_not_le hxy
      by_cases hy : y.2.2 = q
      · have hx : ¬ x.2.2 = q := by
          intro he
          rw [← hy] at he
          exact absurd he (ne_of_lt hlt)
        simp [List.filter_cons, hx, hy, ih]
      · by_cases hx : x.2.2 = q <;> simp [List.filter_cons, hx, hy, ih]

theorem filter_insertionSort (q : ℚ) :
    ∀ (l : List (Int × List Char × ℚ)),
      (List.insertionSort rankLe l).filter (fun t => decide (t.2.2 = q)) =
        l.filter (fun t => decide (t.2.2 = q)) := by
  intro l
  induction l with
  | nil => rfl
  | cons x l ih =>
    simp only [List.insertionSort]
    rw [filter_orderedInsert q x (List.insertionSort rankLe l), List.filter_cons,
      List.filter_cons, ih]

theorem rankOk_each {d : PyDict} (h : RankOk d) :
    ∀ v ∈ d.map (fun p => p.2),
      (DBTModelStatus.get_id v._raw).toOption.isSome = true ∧
      (DBTModelStatus.get_runtime v._raw).toOption.isSome = true := by
  intro v hv
  obtain ⟨p, hp, rfl⟩ := List.mem_map.mp hv
  unfold RankOk at h
  rw [List.all_eq_true] at h
  have := h p hp
  simp at this
  exact this

/-- Sample consolidated dict with runtimes 20.0, 15.0, 11.69 and 5.0, in
insertion order. -/
def exRankDict : PyDict :=
  [(some 1, DBTModelStatus.init ("1:1:1 1 of 4 OK a [X in 20.0s]")),
   (some 2, DBTModelStatus.init ("1:1:1 2 of 4 OK b [X in 15.0s]")),
   (some 3, DBTModelStatus.init ("1:1:1 3 of 4 OK c [X in 11.69s]")),
   (some 4, DBTModelStatus.init ("1:1:1 4 of 4 OK d [X in 5.0s]"))]

/-- C2: over a consolidated dict whose extractions all succeed, the ranker
returns the slice from rank position 2 through N of a list s that is a
permutation of the claim's substituted tuples (0 for an absent id, the
placeholder for an absent model name, 0 for an absent runtime, one tuple per
dict entry in insertion order), is sorted by runtime descending, and keeps
tuples of equal runtime in the insertion order of the dict; in particular for
runtimes 20.0, 15.0, 11.69, 5.0 and N = 3 the returned runtimes are 15.0 and
11.69 (the single highest entry is excluded). -/
theorem c2_ranker (d : PyDict) (n : Nat) (h : RankOk d) :
    ∃ (out s : List (Int × List Char × ℚ)),
      top_n_runtime_dbt_models_status d n = .ok out ∧
      out = (s.take n).drop 1 ∧
      s.Perm (d.map (fun p => claimTuple p.2)) ∧
      s.Sorted rankLe ∧
      (∀ q : ℚ, s.filter (fun t => decide (t.2.2 = q)) =
        (d.map (fun p => claimTuple p.2)).filter (fun t => decide (t.2.2 = q))) ∧
      (top_n_runtime_dbt_models_status exRankDict 3).map
        (fun l => l.map (fun t => t.2.2)) = .ok [mkRat 15 1, mkRat 1169 100] := by
  have hvs : (d.map (fun p => p.2)).map claimTuple =
      d.map (fun p => claimTuple p.2) := by
    rw [List.map_map]
    rfl
  have hmapM := mapM_rankTuple_ok (d.map (fun p => p.2)) (rankOk_each h)
  refine ⟨_, List.insertionSort rankLe (d.map (fun p => claimTuple p.2)),
    ?_, rfl, ?_, ?_, ?_, by decide⟩
  · unfold top_n_runtime_dbt_models_status
    dsimp only
    rw [hmapM, hvs]
    rfl
  · exact List.perm_insertionSort rankLe _
  · exact List.sorted_insertionSort rankLe _
  · intro q
    exact filter_insertionSort q _

/-- Witness for c2_ranker at the sample dict with N equal to 3. -/
theorem c2_ranker_witness :
    RankOk exRankDict ∧
    ∃ (out s : List (Int × List Char × ℚ)),
      top_n_runtime_dbt_models_status exRankDict 3 = .ok out ∧
      out = (s.take 3).drop 1 ∧
      s.Perm (exRankDict.map (fun p => claimTuple p.2)) ∧
      s.Sorted rankLe ∧
      (∀ q : ℚ, s.filter (fun t => decide (t.2.2 = q)) =
        (exRankDict.map (fun p => claimTuple p.2)).filter
          (fun t => decide (t.2.2 = q))) ∧
      (top_n_runtime_dbt_models_status exRankDict 3).map
        (fun l => l.map (fun t => t.2.2)) = .ok [mkRat 15 1, mkRat 1169 100] :=
  ⟨by unfold RankOk; rfl, c2_ranker exRankDict 3 (by unfold RankOk; rfl)⟩

/-- A record whose runtime text is empty: the line holds " in s]" so the
runtime regex matches but float of the empty string raises ValueError. -/
def exBadRecord : DBTModelStatus := DBTModelStatus.init ("1:2:3 4 of 5 OK m [X in s]")

/-- C10 counterexample: a genuinely consolidated one-entry dict on which the
ranker does fail with ValueError, refuting the claim that the ranker never
fails on any consolidated mapping. -/
theorem c10_counterexample :
    consolidate_dbt_models_status [exBadRecord] = .ok [(some 4, exBadRecord)] ∧
    top_n_runtime_dbt_models_status [(some 4, exBadRecord)] 3 =
      .error .valueError := by
  constructor <;> rfl

/-- C10 amended: when every record's id and runtime extraction succeeds, the
ranker returns exactly min(S, N) - 1 entries (truncated subtraction, so 0
when N is at most 1 or the dict has at most one entry); without that proviso
the ranker can raise ValueError, as the counterexample shows. -/
theorem c10_ranker_length (d : PyDict) (n : Nat) (h : RankOk d) :
    ∃ out, top_n_runtime_dbt_models_status d n = .ok out ∧
      out.length = min d.length n - 1 := by
  have hvs : (d.map (fun p => p.2)).map claimTuple =
      d.map (fun p => claimTuple p.2) := by
    rw [List.map_map]
    rfl
  have hmapM := mapM_rankTuple_ok (d.map (fun p => p.2)) (rankOk_each h)
  have htop : top_n_runtime_dbt_models_status d n =
      .ok (((List.insertionSort rankLe
        (d.map (fun p => claimTuple p.2))).take n).drop 1) := by
    unfold top_n_runtime_dbt_models_status
    dsimp only
    rw [hmapM, hvs]
    rfl
  refine ⟨_, htop, ?_⟩
  have hslen : (List.insertionSort rankLe (d.map (fun p => claimTuple p.2))).length =
      d.length := by
    rw [(List.perm_insertionSort rankLe _).length_eq, List.length_map]
  rw [List.length_drop, List.length_take, hslen]
  omega

/-- Witness for c10_ranker_length at the sample dict with N equal to 3:
min(4, 3) - 1 = 2 entries. -/
theorem c10_ranker_length_witness :
    RankOk exRankDict ∧
    ∃ out, top_n_runtime_dbt_models_status exRankDict 3 = .ok out ∧
      out.length = min exRankDict.length 3 - 1 :=
  ⟨by unfold RankOk; rfl, c10_ranker_length exRankDict 3 (by unfold RankOk; rfl)⟩

/-- All characters of a list satisfy a class. -/
def AllOf (c : Char → Bool) (l : List Char) : Prop := ∀ x ∈ l, c x = true

/-- The language of the line-shape regex, spelled out: a possibly empty digit
run, a colon, a digit run, a colon, a digit run, any whitespace, a digit run,
one whitespace character, the letters of, any whitespace, a digit run, and
then arbitrary remaining text. -/
def ModelLineShape (l : List Char) : Prop :=
  ∃ (d1 d2 d3 w1 d4 w3 d5 rest : List Char) (w2 : Char),
    l = d1 ++ ':' :: (d2 ++ ':' :: (d3 ++ (w1 ++ (d4 ++
      w2 :: 'o' :: 'f' :: (w3 ++ (d5 ++ rest)))))) ∧
    AllOf pyDigit d1 ∧ AllOf pyDigit d2 ∧ AllOf pyDigit d3 ∧
    AllOf pySpace w1 ∧ AllOf pyDigit d4 ∧ pySpace w2 = true ∧
    AllOf pySpace w3 ∧ AllOf pyDigit d5

theorem matches_modelLinePat_iff (l : List Char) :
    Matches modelLinePat l ↔ ModelLineShape l := by
  constructor
  · rintro ⟨segs, r, hs, hok⟩
    simp only [SegsOK, modelLinePat, List.forall₂_cons_left_iff,
      List.forall₂_nil_left_iff] at hok
    obtain ⟨b1, l1, h1, ⟨b2, l2, h2, ⟨b3, l3, h3, ⟨b4, l4, h4, ⟨b5, l5, h5,
      ⟨b6, l6, h6, ⟨b7, l7, h7, ⟨b8, l8, h8, ⟨b9, l9, h9, ⟨b10, l10, h10,
      ⟨b11, l11, h11, hnil, hl11⟩, hl10⟩, hl9⟩, hl8⟩, hl7⟩, hl6⟩, hl5⟩,
      hl4⟩, hl3⟩, hl2⟩, hl1⟩ := hok
    subst hnil hl1 hl2 hl3 hl4 hl5 hl6 hl7 hl8 hl9 hl10 hl11
    simp only [AtomOK] at h1 h2 h3 h4 h5 h6 h7 h8 h9 h10 h11
    subst h2
    subst h4
    subst h9
    obtain ⟨w2, rfl, hw2⟩ := h8
    refine ⟨b1, b3, b5, b6, b7, b10, b11, r, w2, ?_, h1, h3, h5, h6, h7, hw2,
      h10, h11⟩
    rw [hs]
    simp [List.append_assoc]
  · rintro ⟨d1, d2, d3, w1, d4, w3, d5, rest, w2, heq, hd1, hd2, hd3, hw1,
      hd4, hw2, hw3, hd5⟩
    refine ⟨[d1, [':'], d2, [':'], d3, w1, d4, [w2], ['o', 'f'], w3, d5],
      rest, ?_, ?_⟩
    · rw [heq]
      simp [List.append_assoc]
    · exact List.Forall₂.cons hd1 (List.Forall₂.cons rfl
        (List.Forall₂.cons hd2 (List.Forall₂.cons rfl
        (List.Forall₂.cons hd3 (List.Forall₂.cons hw1
        (List.Forall₂.cons hd4 (List.Forall₂.cons ⟨w2, rfl, hw2⟩
        (List.Forall₂.cons rfl (List.Forall₂.cons hw3
        (List.Forall₂.cons hd5 List.Forall₂.nil))))))))))

theorem is_a_model_line_iff (s : String) :
    DBTModelStatus.is_a_model_line s = true ↔ ModelLineShape s.toList := by
  unfold DBTModelStatus.is_a_model_line
  rw [matchA_isSome_iff]
  exact matches_modelLinePat_iff s.toList

/-- Modelled from the claim's words: the template HH:MM:SS N of M with hours,
minutes and seconds each 1-2 digits, at least one digit in N and in M, one
whitespace before the word of, and arbitrary whitespace after the timestamp
and after of.  Each field is a maximal run, which is forced here because every
field is followed by a character outside its class. -/
def claimShape12 (s : String) : Bool :=
  let l := s.toList
  let d1 := l.takeWhile pyDigit
  decide (1 ≤ d1.length) && decide (d1.length ≤ 2) &&
  (match l.dropWhile pyDigit with
   | ':' :: r2 =>
     let d2 := r2.takeWhile pyDigit
     decide (1 ≤ d2.length) && decide (d2.length ≤ 2) &&
     (match r2.dropWhile pyDigit with
      | ':' :: r4 =>
        let d3 := r4.takeWhile pyDigit
        decide (1 ≤ d3.length) && decide (d3.length ≤ 2) &&
        (let r6 := (r4.dropWhile pyDigit).dropWhile pySpace
         decide (1 ≤ (r6.takeWhile pyDigit).length) &&
         (match r6.dropWhile pyDigit with
          | w :: 'o' :: 'f' :: r9 =>
            pySpace w &&
            decide (1 ≤ ((r9.dropWhile pySpace).takeWhile pyDigit).length)
          | _ => false))
      | _ => false)
   | _ => false)

/-- C3 counterexample: a line with a three-digit hours field is retained by
the filter although the claim's 1-2 digit template rejects it. -/
theorem c3_counterexample :
    claimShape12 ("123:4:5 6 of 7") = false ∧
    read_log_models_lines_only [("123:4:5 6 of 7")] = [("123:4:5 6 of 7")] := by
  constructor <;> rfl

/-- C3 amended: the filter strips escape sequences from every line and then
retains, in original order, exactly the lines that begin with the regex's
shape: three digit runs of ANY length, including empty, separated by colons,
then any whitespace, a digit run, exactly one whitespace character, the word
of, any whitespace, and a digit run. -/
theorem c3_line_filter (lines : List String) :
    read_log_models_lines_only lines =
      (lines.map escapeStr).filter DBTModelStatus.is_a_model_line ∧
    ∀ s : String, DBTModelStatus.is_a_model_line s = true ↔ ModelLineShape s.toList :=
  ⟨rfl, fun s => is_a_model_line_iff s⟩

/-- Witness for c3_line_filter: the docstring START line has the shape. -/
theorem c3_line_filter_witness : ModelLineShape exStartLine.toList :=
  ((c3_line_filter []).2 exStartLine).mp (by rfl)

/-- A line whose nested escape sequences strip to a residual escape sequence:
one pass of re.sub leaves a new match behind. -/
def c8BadLine : String := "1:2:3 4 of 5 \x1B[\x1B[0m0m"

/-- C8 counterexample: filtering the already-filtered singleton changes it,
because escape stripping is not idempotent on nested escape sequences. -/
theorem c8_counterexample :
    read_log_models_lines_only (read_log_models_lines_only [c8BadLine]) ≠
      read_log_models_lines_only [c8BadLine] := by
  decide

/-- C8 amended: the filtering step is idempotent on every line set whose
produced lines are fixed points of escape stripping (in particular whenever
no produced line still contains an escape introducer); in general a second
pass can strip residual sequences left by nested escapes, as the
counterexample shows.  Selection alone never drops an already-retained
line. -/
theorem c8_filter_idempotent (lines : List String)
    (h : ∀ s ∈ read_log_models_lines_only lines, escapeStr s = s) :
    read_log_models_lines_only (read_log_models_lines_only lines) =
      read_log_models_lines_only lines := by
  unfold read_log_models_lines_only at h ⊢
  rw [List.map_congr_left h, List.map_id']
  exact List.filter_eq_self.mpr (fun a ha => (List.mem_filter.mp ha).2)

/-- Witness for c8_filter_idempotent on a clean two-line input. -/
theorem c8_filter_idempotent_witness :
    (∀ s ∈ read_log_models_lines_only [("05:56:24  5 of 135 START m"), ("junk")],
      escapeStr s = s) ∧
    read_log_models_lines_only
        (read_log_models_lines_only [("05:56:24  5 of 135 START m"), ("junk")]) =
      read_log_models_lines_only [("05:56:24  5 of 135 START m"), ("junk")] :=
  ⟨by decide, c8_filter_idempotent _ (by decide)⟩

/-- The language of the status regex with the captured keyword made explicit:
somewhere in the line, the line-shape prefix, then any whitespace, then the
keyword. -/
def StatusKwShape (l : List Char) (kw : List Char) : Prop :=
  ∃ (pre d1 d2 d3 w1 d4 w3 d5 w4 rest : List Char) (w2 : Char),
    l = pre ++ (d1 ++ ':' :: (d2 ++ ':' :: (d3 ++ (w1 ++ (d4 ++
      w2 :: 'o' :: 'f' :: (w3 ++ (d5 ++ (w4 ++ (kw ++ rest))))))))) ∧
    AllOf pyDigit d1 ∧ AllOf pyDigit d2 ∧ AllOf pyDigit d3 ∧
    AllOf pySpace w1 ∧ AllOf pyDigit d4 ∧ pySpace w2 = true ∧
    AllOf pySpace w3 ∧ AllOf pyDigit d5 ∧ AllOf pySpace w4

/-- The three status keywords, in the order of the status regex. -/
def statusKws : List (List Char) :=
  [['S', 'T', 'A', 'R', 'T'], ['E', 'R', 'R', 'O', 'R'], ['O', 'K']]

theorem statusHit_iff (l : List Char) :
    (∃ kw, kw ∈ statusKws ∧ StatusKwShape l kw) ↔ SearchHit statusPat l := by
  constructor
  · rintro ⟨kw, hkw, pre, d1, d2, d3, w1, d4, w3, d5, w4, rest, w2, heq, hd1,
      hd2, hd3, hw1, hd4, hw2, hw3, hd5, hw4⟩
    refine ⟨pre, _, heq, ?_⟩
    refine ⟨[d1, [':'], d2, [':'], d3, w1, d4, [w2], ['o', 'f'], w3, d5, w4, kw],
      rest, ?_, ?_⟩
    · simp [List.append_assoc]
    · exact List.Forall₂.cons hd1 (List.Forall₂.cons rfl
        (List.Forall₂.cons hd2 (List.Forall₂.cons rfl
        (List.Forall₂.cons hd3 (List.Forall₂.cons hw1
        (List.Forall₂.cons hd4 (List.Forall₂.cons ⟨w2, rfl, hw2⟩
        (List.Forall₂.cons rfl (List.Forall₂.cons hw3
        (List.Forall₂.cons hd5 (List.Forall₂.cons hw4
        (List.Forall₂.cons hkw List.Forall₂.nil))))))))))))
  · rintro ⟨pre, rest, heq, segs, r, hs, hok⟩
    simp only [SegsOK, statusPat, List.forall₂_cons_left_iff,
      List.forall₂_nil_left_iff] at hok
    obtain ⟨b1, l1, h1, ⟨b2, l2, h2, ⟨b3, l3, h3, ⟨b4, l4, h4, ⟨b5, l5, h5,
      ⟨b6, l6, h6, ⟨b7, l7, h7, ⟨b8, l8, h8, ⟨b9, l9, h9, ⟨b10, l10, h10,
      ⟨b11, l11, h11, ⟨b12, l12, h12, ⟨b13, l13, h13, hnil, hl13⟩, hl12⟩,
      hl11⟩, hl10⟩, hl9⟩, hl8⟩, hl7⟩, hl6⟩, hl5⟩, hl4⟩, hl3⟩, hl2⟩, hl1⟩ := hok
    subst hnil hl1 hl2 hl3 hl4 hl5 hl6 hl7 hl8 hl9 hl10 hl11 hl12 hl13
    simp only [AtomOK] at h1 h2 h3 h4 h5 h6 h7 h8 h9 h10 h11 h12 h13
    subst h2
    subst h4
    subst h9
    obtain ⟨w2, rfl, hw2⟩ := h8
    refine ⟨b13, h13, pre, b1, b3, b5, b6, b7, b10, b11, b12, r, w2, ?_, h1,
      h3, h5, h6, h7, hw2, h10, h11, h12⟩
    rw [heq, hs]
    simp [List.append_assoc]

/-- The mapping of the if chain of the constructor, as a function of the
captured keyword. -/
def statusOfKw (kw : List Char) : Status :=
  if kw = ['S', 'T', 'A', 'R', 'T'] then .STARTED
  else if kw = ['O', 'K'] then .PASS
  else if kw = ['E', 'R', 'R', 'O', 'R'] then .ERROR
  else .UNKNOWN

theorem statusOfRaw_eq_some {raw : String} {segs : List (List Char)}
    (hs : searchA statusPat raw.toList = some segs) :
    DBTModelStatus.statusOfRaw raw = statusOfKw (segs.getD 12 []) := by
  unfold DBTModelStatus.statusOfRaw statusOfKw
  rw [hs]

/-- C4: whenever status extraction yields Started, Pass or Error, the line
contains the corresponding keyword START, OK or ERROR right after an N-of-M
group (timestamp shape, then any whitespace, then the keyword), and the
status is Unknown exactly when no such keyword occurrence exists in the
line. -/
theorem c4_status_extraction (raw : String) :
    (DBTModelStatus.statusOfRaw raw = .STARTED →
      StatusKwShape raw.toList (['S', 'T', 'A', 'R', 'T'])) ∧
    (DBTModelStatus.statusOfRaw raw = .PASS →
      StatusKwShape raw.toList (['O', 'K'])) ∧
    (DBTModelStatus.statusOfRaw raw = .ERROR →
      StatusKwShape raw.toList (['E', 'R', 'R', 'O', 'R'])) ∧
    (DBTModelStatus.statusOfRaw raw = .UNKNOWN ↔
      ¬ ∃ kw, kw ∈ statusKws ∧ StatusKwShape raw.toList kw) := by
  cases hs : searchA statusPat raw.toList with
  | none =>
    have hu : DBTModelStatus.statusOfRaw raw = .UNKNOWN := by
      unfold DBTModelStatus.statusOfRaw
      rw [hs]
    have hnohit : ¬ SearchHit statusPat raw.toList := searchA_none_iff.mp hs
    refine ⟨?_, ?_, ?_, ?_⟩
    · intro h; rw [hu] at h; exact absurd h (by simp)
    · intro h; rw [hu] at h; exact absurd h (by simp)
    · intro h; rw [hu] at h; exact absurd h (by simp)
    · simp only [hu, true_iff]
      intro hex
      exact hnohit ((statusHit_iff raw.toList).mp hex)
  | some segs =>
    have hhit : SearchHit statusPat raw.toList :=
      searchA_isSome_iff.mp (by rw [hs]; rfl)
    obtain ⟨kw, hkwmem, hshape⟩ := (statusHit_iff raw.toList).mpr hhit
    have hsegs := searchA_eq_some hs
    obtain ⟨pre, rest, r, heq, hm⟩ := hsegs
    obtain ⟨hrest, hok⟩ := matchA_sound hm
    simp only [SegsOK, statusPat, List.forall₂_cons_left_iff,
      List.forall₂_nil_left_iff] at hok
    obtain ⟨b1, l1, h1, ⟨b2, l2, h2, ⟨b3, l3, h3, ⟨b4, l4, h4, ⟨b5, l5, h5,
      ⟨b6, l6, h6, ⟨b7, l7, h7, ⟨b8, l8, h8, ⟨b9, l9, h9, ⟨b10, l10, h10,
      ⟨b11, l11, h11, ⟨b12, l12, h12, ⟨b13, l13, h13, hnil, hl13⟩, hl12⟩,
      hl11⟩, hl10⟩, hl9⟩, hl8⟩, hl7⟩, hl6⟩, hl5⟩, hl4⟩, hl3⟩, hl2⟩, hl1⟩ := hok
    subst hnil hl1 hl2 hl3 hl4 hl5 hl6 hl7 hl8 hl9 hl10 hl11 hl12 hl13
    simp only [AtomOK] at h1 h2 h3 h4 h5 h6 h7 h8 h9 h10 h11 h12 h13
    subst h2
    subst h4
    subst h9
    obtain ⟨w2, rfl, hw2⟩ := h8
    have hshape13 : StatusKwShape raw.toList b13 := by
      refine ⟨pre, b1, b3, b5, b6, b7, b10, b11, b12, r, w2, ?_, h1, h3, h5,
        h6, h7, hw2, h10, h11, h12⟩
      rw [heq, hrest]
      simp [List.append_assoc]
    have hsor := statusOfRaw_eq_some hs
    have hget : ([b1, [':'], b3, [':'], b5, b6, b7, [w2], ['o', 'f'], b10,
        b11, b12, b13] : List (List Char)).getD 12 [] = b13 := rfl
    rw [hget] at hsor
    have hmem13 : b13 ∈ statusKws := h13
    simp only [List.mem_cons, List.mem_singleton, List.not_mem_nil,
      or_false] at h13
    rcases h13 with h13 | h13 | h13 <;> subst h13
    · refine ⟨fun _ => hshape13, ?_, ?_, ?_⟩
      · intro h; rw [hsor] at h; exact absurd h (by simp [statusOfKw])
      · intro h; rw [hsor] at h; exact absurd h (by simp [statusOfKw])
      · rw [hsor]
        simp only [statusOfKw]
        constructor
        · intro h; exact absurd h (by simp)
        · intro hno; exact absurd ⟨_, hmem13, hshape13⟩ hno
    · refine ⟨?_, ?_, fun _ => hshape13, ?_⟩
      · intro h; rw [hsor] at h; exact absurd h (by simp [statusOfKw])
      · intro h; rw [hsor] at h; exact absurd h (by simp [statusOfKw])
      · rw [hsor]
        simp only [statusOfKw]
        constructor
        · intro h; exact absurd h (by simp)
        · intro hno; exact absurd ⟨_, hmem13, hshape13⟩ hno
    · refine ⟨?_, fun _ => hshape13, ?_, ?_⟩
      · intro h; rw [hsor] at h; exact absurd h (by simp [statusOfKw])
      · intro h; rw [hsor] at h; exact absurd h (by simp [statusOfKw])
      · rw [hsor]
        simp only [statusOfKw]
        constructor
        · intro h; exact absurd h (by simp)
        · intro hno; exact absurd ⟨_, hmem13, hshape13⟩ hno

/-- Witness for c4_status_extraction at the docstring START line and at a
keyword-free line. -/
theorem c4_status_extraction_witness :
    StatusKwShape exStartLine.toList (['S', 'T', 'A', 'R', 'T']) ∧
    ¬ ∃ kw, kw ∈ statusKws ∧ StatusKwShape (("hello world" : String)).toList kw :=
  ⟨(c4_status_extraction exStartLine).1 (by rfl),
   (c4_status_extraction ("hello world")).2.2.2.mp (by rfl)⟩

theorem pyDigit_ne_space {c : Char} (h : pyDigit c = true) : c ≠ ' ' := by
  intro he
  subst he
  exact absurd h (by decide)

theorem pySpace_ne_o {c : Char} (h : pySpace c = true) : c ≠ 'o' := by
  intro he
  subst he
  exact absurd h (by decide)

theorem strIndex_cons (pat : List Char) (c : Char) (l : List Char) :
    strIndex pat (c :: l) =
      if litAt pat (c :: l) = true then some 0
      else (strIndex pat l).map (fun x => x + 1) := rfl

theorem strIndex_of_digits {D : List Char} (hD : AllOf pyDigit D) :
    strIndex [' ', 'o', 'f', ' '] D = none := by
  induction D with
  | nil => rfl
  | cons c D ih =>
    have hc := hD c (by simp)
    have hnl : ¬ litAt [' ', 'o', 'f', ' '] (c :: D) = true := by
      intro hlit
      obtain ⟨t, ht⟩ := litAt_iff.mp hlit
      injection ht with h1 _
      exact pyDigit_ne_space hc h1
    rw [strIndex_cons, if_neg hnl, ih (fun x hx => hD x (by simp [hx]))]
    rfl

theorem strIndex_of_spaces_digits {W D2 : List Char} (hW : AllOf pySpace W)
    (hD2 : AllOf pyDigit D2) :
    strIndex [' ', 'o', 'f', ' '] (W ++ D2) = none := by
  induction W with
  | nil => simpa using strIndex_of_digits hD2
  | cons w W ih =>
    have hnl : ¬ litAt [' ', 'o', 'f', ' '] (w :: (W ++ D2)) = true := by
      intro hlit
      obtain ⟨t, ht⟩ := litAt_iff.mp hlit
      injection ht with h1 h2
      cases W with
      | nil =>
        simp only [List.nil_append] at h2
        have : pyDigit 'o' = true := by
          refine hD2 'o' ?_
          rw [h2]
          simp
        exact absurd this (by decide)
      | cons w' W' =>
        injection h2 with h3 _
        have hw' := hW w' (by simp)
        exact pySpace_ne_o hw' h3
    rw [List.cons_append, strIndex_cons, if_neg hnl,
      ih (fun x hx => hW x (by simp [hx]))]
    rfl

theorem strIndex_of_of_tail {W D2 : List Char} (hW : AllOf pySpace W)
    (hD2 : AllOf pyDigit D2) :
    strIndex [' ', 'o', 'f', ' '] ('o' :: 'f' :: (W ++ D2)) = none := by
  have h1 : ¬ litAt [' ', 'o', 'f', ' '] ('o' :: 'f' :: (W ++ D2)) = true := by
    intro hlit
    obtain ⟨t, ht⟩ := litAt_iff.mp hlit
    injection ht with ho _
    exact absurd ho (by decide)
  have h2 : ¬ litAt [' ', 'o', 'f', ' '] ('f' :: (W ++ D2)) = true := by
    intro hlit
    obtain ⟨t, ht⟩ := litAt_iff.mp hlit
    injection ht with hf _
    exact absurd hf (by decide)
  rw [strIndex_cons, if_neg h1, strIndex_cons, if_neg h2,
    strIndex_of_spaces_digits hW hD2]
  rfl

theorem strIndex_of_group {D W D2 : List Char} {w : Char}
    (hD : AllOf pyDigit D) (hW : AllOf pySpace W) (hD2 : AllOf pyDigit D2) :
    strIndex [' ', 'o', 'f', ' '] (D ++ w :: 'o' :: 'f' :: (W ++ D2)) =
      if w = ' ' ∧ (W ++ D2).head? = some ' ' then some D.length else none := by
  induction D with
  | nil =>
    simp only [List.nil_append, List.length_nil]
    by_cases hcond : w = ' ' ∧ (W ++ D2).head? = some ' '
    · obtain ⟨rfl, hhead⟩ := hcond
      cases hWD : W ++ D2 with
      | nil => rw [hWD] at hhead; simp at hhead
      | cons x t =>
        rw [hWD] at hhead
        simp only [List.head?_cons, Option.some.injEq] at hhead
        subst hhead
        have hlit : litAt [' ', 'o', 'f', ' '] (' ' :: 'o' :: 'f' :: (' ' :: t)) = true :=
          litAt_iff.mpr ⟨t, rfl⟩
        rw [strIndex_cons, if_pos hlit, if_pos ⟨rfl, rfl⟩]
    · have hnl : ¬ litAt [' ', 'o', 'f', ' '] (w :: 'o' :: 'f' :: (W ++ D2)) = true := by
        intro hlit
        obtain ⟨t, ht⟩ := litAt_iff.mp hlit
        injection ht with h1 h2
        injection h2 with _ h3
        injection h3 with _ h4
        exact hcond ⟨h1, by rw [h4]; rfl⟩
      rw [strIndex_cons, if_neg hnl, strIndex_of_of_tail hW hD2, if_neg hcond]
      rfl
  | cons c D ih =>
    have hc := hD c (by simp)
    have hnl : ¬ litAt [' ', 'o', 'f', ' ']
        (c :: (D ++ w :: 'o' :: 'f' :: (W ++ D2))) = true := by
      intro hlit
      obtain ⟨t, ht⟩ := litAt_iff.mp hlit
      injection ht with h1 _
      exact pyDigit_ne_space hc h1
    rw [List.cons_append, strIndex_cons, if_neg hnl,
      ih (fun x hx => hD x (by simp [hx]))]
    by_cases hcond : w = ' ' ∧ (W ++ D2).head? = some ' '
    · rw [if_pos hcond, if_pos hcond]
      rfl
    · rw [if_neg hcond, if_neg hcond]
      rfl

theorem not_pySpace_of_pyDigit {c : Char} (h : pyDigit c = true) : pySpace c = false := by
  have h01 : ¬ c = ' ' := fun he => by subst he; exact absurd h (by decide)
  have h02 : ¬ c = '\t' := fun he => by subst he; exact absurd h (by decide)
  have h03 : ¬ c = '\n' := fun he => by subst he; exact absurd h (by decide)
  have h04 : ¬ c = '\x0d' := fun he => by subst he; exact absurd h (by decide)
  have h05 : ¬ c = '\x0b' := fun he => by subst he; exact absurd h (by decide)
  have h06 : ¬ c = '\x0c' := fun he => by subst he; exact absurd h (by decide)
  have h07 : ¬ c = '\x1c' := fun he => by subst he; exact absurd h (by decide)
  have h08 : ¬ c = '\x1d' := fun he => by subst he; exact absurd h (by decide)
  have h09 : ¬ c = '\x1e' := fun he => by subst he; exact absurd h (by decide)
  have h10 : ¬ c = '\x1f' := fun he => by subst he; exact absurd h (by decide)
  have h11 : ¬ c = '\x85' := fun he => by subst he; exact absurd h (by decide)
  have h12 : ¬ c = '\xa0' := fun he => by subst he; exact absurd h (by decide)
  simp [pySpace, h01, h02, h03, h04, h05, h06, h07, h08, h09, h10, h11, h12]

theorem dropWhile_pySpace_digits {D : List Char} (hD : AllOf pyDigit D) :
    D.dropWhile pySpace = D := by
  cases D with
  | nil => rfl
  | cons c ds =>
    have hc := not_pySpace_of_pyDigit (hD c (by simp))
    simp [List.dropWhile_cons, hc]

theorem pyStrip_digits {D : List Char} (hD : AllOf pyDigit D) : pyStrip D = D := by
  unfold pyStrip
  rw [dropWhile_pySpace_digits hD,
    dropWhile_pySpace_digits (fun x hx => hD x (List.mem_reverse.mp hx)),
    List.reverse_reverse]

theorem pyInt_digits {D : List Char} (hne : D ≠ []) (hD : AllOf pyDigit D) :
    pyInt D = some ((digitsVal D : Int)) := by
  unfold pyInt
  rw [pyStrip_digits hD]
  rcases D with _ | ⟨c, ds⟩
  · exact absurd rfl hne
  · have hc := hD c (by simp)
    have hcm : ¬ c = '-' := fun he => by subst he; exact absurd hc (by decide)
    have hcp : ¬ c = '+' := fun he => by subst he; exact absurd hc (by decide)
    have hall : (c :: ds).all pyDigit = true := by
      rw [List.all_eq_true]
      exact fun x hx => hD x hx
    split
    · rename_i ds1 heq
      injection heq with h1 _
      exact absurd h1 hcm
    · rename_i ds1 heq
      injection heq with h1 _
      exact absurd h1 hcp
    · rename_i x heq1 heq2
      rw [if_pos]
      simp [hall]

/-- Unfolding of get_id on a line whose line-shape search succeeds with its
eleven per-atom segments. -/
theorem get_id_eq {raw : String} {b1 b2 b3 b4 b5 b6 b7 b8 b9 b10 b11 : List Char}
    (hs : searchA modelLinePat raw.toList =
      some [b1, b2, b3, b4, b5, b6, b7, b8, b9, b10, b11]) :
    DBTModelStatus.get_id raw =
      (match strIndex [' ', 'o', 'f', ' '] (b7 ++ b8 ++ b9 ++ b10 ++ b11) with
       | none => .error .valueError
       | some i =>
         match pyInt (pyStrip ((b7 ++ b8 ++ b9 ++ b10 ++ b11).take i)) with
         | none => .error .valueError
         | some n => .ok (some n)) := by
  unfold DBTModelStatus.get_id
  rw [hs]
  rfl

/-- C5 counterexample: the line-shape regex matches the line
1:2:3 4 of5 (no space after of), its second group is 4-space-o-f-5, and
str.index then fails to find the four characters space-o-f-space, so get_id
raises ValueError instead of returning a value or absent. -/
theorem c5_counterexample :
    DBTModelStatus.get_id ("1:2:3 4 of5") = .error .valueError := by rfl

/-- C5 (amended): when no substring of the line has the line shape, get_id
returns absent; when the search succeeds, the captured group decomposes into
digits, one whitespace, the letters of, whitespace, digits, and get_id returns
the value of the digit run before the whitespace exactly when that whitespace
is a plain space followed by a plain space and the digit run is nonempty — in
every other case it raises ValueError, so the no-failure part of the claim is
false. -/
theorem c5_id_extraction (raw : String) :
    ((¬ ∃ pre rest, raw.toList = pre ++ rest ∧ ModelLineShape rest) →
      DBTModelStatus.get_id raw = .ok none) ∧
    (∀ segs, searchA modelLinePat raw.toList = some segs →
      ∃ D1 w W D2,
        segs.getD 6 [] = D1 ∧ segs.getD 7 [] = [w] ∧
        segs.getD 8 [] = ['o', 'f'] ∧ segs.getD 9 [] = W ∧
        segs.getD 10 [] = D2 ∧
        AllOf pyDigit D1 ∧ pySpace w = true ∧ AllOf pySpace W ∧
        AllOf pyDigit D2 ∧
        DBTModelStatus.get_id raw =
          (if w = ' ' ∧ (W ++ D2).head? = some ' ' then
            (if D1 = [] then .error .valueError
             else .ok (some ((digitsVal D1 : Int))))
           else .error .valueError)) := by
  constructor
  · intro hno
    have hsn : searchA modelLinePat raw.toList = none := by
      rw [searchA_none_iff]
      intro hhit
      obtain ⟨pre, rest, heq, hm⟩ := hhit
      exact hno ⟨pre, rest, heq, (matches_modelLinePat_iff rest).mp hm⟩
    unfold DBTModelStatus.get_id
    rw [hsn]
  · intro segs hs
    obtain ⟨pre, rest, r, heq, hm⟩ := searchA_eq_some hs
    obtain ⟨hrest, hok⟩ := matchA_sound hm
    simp only [SegsOK, modelLinePat, List.forall₂_cons_left_iff,
      List.forall₂_nil_left_iff] at hok
    obtain ⟨b1, l1, h1, ⟨b2, l2, h2, ⟨b3, l3, h3, ⟨b4, l4, h4, ⟨b5, l5, h5,
      ⟨b6, l6, h6, ⟨b7, l7, h7, ⟨b8, l8, h8, ⟨b9, l9, h9, ⟨b10, l10, h10,
      ⟨b11, l11, h11, hnil, hl11⟩, hl10⟩, hl9⟩, hl8⟩, hl7⟩, hl6⟩, hl5⟩,
      hl4⟩, hl3⟩, hl2⟩, hl1⟩ := hok
    subst hnil hl1 hl2 hl3 hl4 hl5 hl6 hl7 hl8 hl9 hl10 hl11
    simp only [AtomOK] at h1 h2 h3 h4 h5 h6 h7 h8 h9 h10 h11
    obtain ⟨w, hw8, hw⟩ := h8
    subst hw8
    subst h9
    refine ⟨b7, w, b10, b11, rfl, rfl, rfl, rfl, rfl, h7, hw, h10, h11, ?_⟩
    rw [get_id_eq hs]
    have hg : b7 ++ [w] ++ ['o', 'f'] ++ b10 ++ b11 =
        b7 ++ w :: 'o' :: 'f' :: (b10 ++ b11) := by simp
    rw [hg, strIndex_of_group h7 h10 h11]
    by_cases hcond : w = ' ' ∧ (b10 ++ b11).head? = some ' '
    · rw [if_pos hcond, if_pos hcond]
      dsimp only
      rw [List.take_left]
      rcases hb7 : b7 with _ | ⟨c, ds⟩
      · rfl
      · rw [if_neg (List.cons_ne_nil c ds)]
        rw [pyStrip_digits (hb7 ▸ h7), pyInt_digits (List.cons_ne_nil c ds) (hb7 ▸ h7)]
    · rw [if_neg hcond, if_neg hcond]

theorem c5_id_extraction_witness :
    DBTModelStatus.get_id ("hello world") = .ok none ∧
    DBTModelStatus.get_id ("1:2:3 4 of 5 OK m") = .ok (some 4) := by
  constructor
  · refine (c5_id_extraction ("hello world")).1 ?_
    intro hex
    obtain ⟨pre, rest, he, hsh⟩ := hex
    have h : searchA modelLinePat ("hello world").toList = none := rfl
    rw [searchA_none_iff] at h
    exact h ⟨pre, rest, he, (matches_modelLinePat_iff rest).mpr hsh⟩
  · obtain ⟨D1, w, W, D2, e6, e7, e8, e9, e10, hD1, hw, hW, hD2, hgid⟩ :=
      (c5_id_extraction ("1:2:3 4 of 5 OK m")).2
        [['1'], [':'], ['2'], [':'], ['3'], [' '], ['4'], [' '],
         ['o', 'f'], [' '], ['5']] (by rfl)
    have e7' : [' '] = [w] := e7
    injection e7' with hw2 _
    subst hw2
    subst e6
    subst e9
    subst e10
    rw [hgid]
    rfl

theorem takeWhile_append_of_all {p : Char → Bool} {N : List Char} {x : Char}
    {rest : List Char} (hN : AllOf p N) (hx : p x = false) :
    (N ++ x :: rest).takeWhile p = N := by
  induction N with
  | nil => simp [List.takeWhile_cons, hx]
  | cons c ds ih =>
    have hc := hN c (by simp)
    simp [List.takeWhile_cons, hc, ih (fun y hy => hN y (by simp [hy]))]

theorem pySpace_cases {c : Char} (h : pySpace c = true) :
    c = ' ' ∨ c = '\t' ∨ c = '\n' ∨ c = '\x0d' ∨ c = '\x0b' ∨ c = '\x0c' ∨
    c = '\x1c' ∨ c = '\x1d' ∨ c = '\x1e' ∨ c = '\x1f' ∨ c = '\x85' ∨ c = '\xa0' := by
  simp only [pySpace, Bool.or_eq_true, decide_eq_true_eq] at h
  tauto

theorem not_numDot_of_pySpace {c : Char} (h : pySpace c = true) : numDot c = false := by
  rcases pySpace_cases h with rfl|rfl|rfl|rfl|rfl|rfl|rfl|rfl|rfl|rfl|rfl|rfl <;> decide

theorem pySpace_ne_s {c : Char} (h : pySpace c = true) : ¬ c = 's' := by
  rcases pySpace_cases h with rfl|rfl|rfl|rfl|rfl|rfl|rfl|rfl|rfl|rfl|rfl|rfl <;> decide

theorem starRun_zero_none {cont : List Char → Option (List (List Char) × List Char)}
    {s : List Char} (h : cont s = none) : starRun cont s 0 = none := by
  simp [starRun, h]

theorem starRun_first {cont : List Char → Option (List (List Char) × List Char)}
    {s : List Char} {k : Nat} {segs : List (List Char)} {r : List Char}
    (h : cont (s.drop k) = some (segs, r)) :
    starRun cont s k = some (s.take k :: segs, r) := by
  cases k with
  | zero =>
    simp only [List.drop_zero] at h
    simp [starRun, h]
  | succ k => simp [starRun, h]

theorem matchA_secs_fail {x : Char} {rest : List Char} (hx : numDot x = false)
    (hxs : ¬ x = 's') : matchA runtimeSecsPat (x :: rest) = none := by
  have ht : (x :: rest).takeWhile numDot = [] := by
    simp [List.takeWhile_cons, hx]
  have hc : matchA [Atom.str ['s']] (x :: rest) = none := by
    have hl : litAt ['s'] (x :: rest) = false := by
      have hne : ('s' == x) = false := by
        simp only [beq_eq_false_iff_ne, ne_eq]
        exact fun he => hxs he.symm
      simp [litAt, hne]
    simp [matchA, hl]
  have step : matchA runtimeSecsPat (x :: rest) =
      starRun (fun t => matchA [Atom.str ['s']] t) (x :: rest)
        ((x :: rest).takeWhile numDot).length := rfl
  rw [step, ht, List.length_nil]
  exact starRun_zero_none hc

theorem matchA_secs_at {N rest2 : List Char} (hN : AllOf numDot N) :
    matchA runtimeSecsPat (N ++ 's' :: rest2) = some ([N, ['s']], rest2) := by
  have ht : (N ++ 's' :: rest2).takeWhile numDot = N :=
    takeWhile_append_of_all hN (by decide)
  have hcont : matchA [Atom.str ['s']] ('s' :: rest2) = some ([['s']], rest2) := by
    simp [matchA, litAt]
  have step : matchA runtimeSecsPat (N ++ 's' :: rest2) =
      starRun (fun t => matchA [Atom.str ['s']] t) (N ++ 's' :: rest2)
        ((N ++ 's' :: rest2).takeWhile numDot).length := rfl
  rw [step, ht]
  have h1 : (fun t => matchA [Atom.str ['s']] t) ((N ++ 's' :: rest2).drop N.length) =
      some ([['s']], rest2) := by
    have hdrop : (N ++ 's' :: rest2).drop N.length = 's' :: rest2 := List.drop_left _ _
    rw [hdrop]
    exact hcont
  rw [starRun_first h1, List.take_left]

theorem searchA_cons_of_none {as : List Atom} {c : Char} {s' : List Char}
    (h : matchA as (c :: s') = none) : searchA as (c :: s') = searchA as s' := by
  simp only [searchA]
  rw [h]

theorem searchA_secs_core {N : List Char} (hN : AllOf numDot N) :
    searchA runtimeSecsPat (N ++ ['s', ']']) = some [N, ['s']] := by
  cases N with
  | nil =>
    have hm : matchA runtimeSecsPat ('s' :: [']']) = some ([[], ['s']], [']']) :=
      matchA_secs_at (fun x hx => absurd hx (List.not_mem_nil x))
    simp only [List.nil_append, searchA]
    rw [hm]
  | cons c ds =>
    have hm : matchA runtimeSecsPat (c :: (ds ++ ['s', ']'])) =
        some ([c :: ds, ['s']], [']']) := matchA_secs_at hN
    simp only [List.cons_append, searchA, List.append_eq]
    rw [hm]

theorem searchA_secs {w1 w2 : Char} {N : List Char} (h1 : pySpace w1 = true)
    (h2 : pySpace w2 = true) (hN : AllOf numDot N) :
    searchA runtimeSecsPat ('[' :: w1 :: 'i' :: 'n' :: w2 :: (N ++ ['s', ']'])) =
      some [N, ['s']] := by
  rw [searchA_cons_of_none (matchA_secs_fail (by decide) (by decide))]
  rw [searchA_cons_of_none
    (matchA_secs_fail (not_numDot_of_pySpace h1) (pySpace_ne_s h1))]
  rw [searchA_cons_of_none (matchA_secs_fail (by decide) (by decide))]
  rw [searchA_cons_of_none (matchA_secs_fail (by decide) (by decide))]
  rw [searchA_cons_of_none
    (matchA_secs_fail (not_numDot_of_pySpace h2) (pySpace_ne_s h2))]
  exact searchA_secs_core hN

theorem pyRstrip_s {N : List Char} (hN : AllOf numDot N) :
    pyRstrip 's' (N ++ ['s']) = N := by
  unfold pyRstrip
  rw [List.reverse_append]
  cases hrev : N.reverse with
  | nil =>
    have hN0 : N = [] := by simpa using congrArg List.reverse hrev
    subst hN0
    rfl
  | cons y ys =>
    have hy : numDot y = true := by
      refine hN y ?_
      rw [← List.mem_reverse, hrev]
      simp
    have hys : ¬ y = 's' := fun he => by subst he; exact absurd hy (by decide)
    simp only [List.reverse_cons, List.reverse_nil, List.nil_append,
      List.singleton_append]
    rw [List.dropWhile_cons, if_pos (by simp), List.dropWhile_cons,
      if_neg (by simpa using hys), ← hrev, List.reverse_reverse]

/-- The language of the runtime regex, spelled out: somewhere in the line, one
whitespace character, the letters in, one whitespace character, a possibly
empty run of digits and dots, the letter s and a closing bracket. -/
def InRuntimeShape (l : List Char) : Prop :=
  ∃ (pre : List Char) (w1 w2 : Char) (N rest : List Char),
    l = pre ++ w1 :: 'i' :: 'n' :: w2 :: (N ++ 's' :: ']' :: rest) ∧
    pySpace w1 = true ∧ pySpace w2 = true ∧ AllOf numDot N

theorem searchHit_runtimePat_iff {l : List Char} :
    SearchHit runtimePat l ↔ InRuntimeShape l := by
  constructor
  · rintro ⟨pre, rest, heq, segs, r, hr, hok⟩
    simp only [SegsOK, runtimePat, List.forall₂_cons_left_iff,
      List.forall₂_nil_left_iff] at hok
    obtain ⟨b1, l1, h1, ⟨b2, l2, h2, ⟨b3, l3, h3, ⟨b4, l4, h4,
      ⟨b5, l5, h5, hnil, hl5⟩, hl4⟩, hl3⟩, hl2⟩, hl1⟩ := hok
    subst hnil hl1 hl2 hl3 hl4 hl5
    simp only [AtomOK] at h1 h2 h3 h4 h5
    obtain ⟨w1, e1, hw1⟩ := h1
    obtain ⟨w2, e3, hw2⟩ := h3
    subst e1 e3 h2 h5
    refine ⟨pre, w1, w2, b4, r, ?_, hw1, hw2, h4⟩
    rw [heq, hr]
    simp
  · rintro ⟨pre, w1, w2, N, rest, heq, hw1, hw2, hN⟩
    refine ⟨pre, w1 :: 'i' :: 'n' :: w2 :: (N ++ 's' :: ']' :: rest), heq,
      [[w1], ['i', 'n'], [w2], N, ['s', ']']], rest, by simp, ?_⟩
    refine List.Forall₂.cons ⟨w1, rfl, hw1⟩ ?_
    refine List.Forall₂.cons rfl ?_
    refine List.Forall₂.cons ⟨w2, rfl, hw2⟩ ?_
    refine List.Forall₂.cons hN ?_
    exact List.Forall₂.cons rfl List.Forall₂.nil

/-- C6 counterexample: on the line a-space-in-space-s-bracket the runtime regex
matches with an empty number field, the seconds regex then captures the bare s,
the trailing s is stripped and float() receives the empty string, so
get_runtime raises ValueError instead of returning a value or absent. -/
theorem c6_counterexample :
    DBTModelStatus.get_runtime ("a in s]") = .error .valueError := by rfl

/-- C6 (amended): when the line has no substring of the shape
whitespace-in-whitespace-number-s-bracket, get_runtime returns absent; when the
runtime search succeeds, its segments are that shape and get_runtime returns
float() of the captured digits-and-dots run — the value it denotes when it is
a valid decimal, and a ValueError otherwise (empty run or several dots), so
the no-failure part of the claim is false. -/
theorem c6_runtime_extraction (raw : String) :
    ((¬ InRuntimeShape raw.toList) → DBTModelStatus.get_runtime raw = .ok none) ∧
    (∀ segs, searchA runtimePat raw.toList = some segs →
      ∃ (w1 w2 : Char) (N : List Char),
        segs = [[w1], ['i', 'n'], [w2], N, ['s', ']']] ∧
        pySpace w1 = true ∧ pySpace w2 = true ∧ AllOf numDot N ∧
        DBTModelStatus.get_runtime raw =
          (match pyFloat N with
           | none => .error .valueError
           | some q => .ok (some q))) := by
  constructor
  · intro hno
    have hsn : searchA runtimePat raw.toList = none := by
      rw [searchA_none_iff]
      intro hhit
      exact hno (searchHit_runtimePat_iff.mp hhit)
    unfold DBTModelStatus.get_runtime
    rw [hsn]
  · intro segs hs
    obtain ⟨pre, rest, r, heq, hm⟩ := searchA_eq_some hs
    obtain ⟨hrest, hok⟩ := matchA_sound hm
    simp only [SegsOK, runtimePat, List.forall₂_cons_left_iff,
      List.forall₂_nil_left_iff] at hok
    obtain ⟨b1, l1, h1, ⟨b2, l2, h2, ⟨b3, l3, h3, ⟨b4, l4, h4,
      ⟨b5, l5, h5, hnil, hl5⟩, hl4⟩, hl3⟩, hl2⟩, hl1⟩ := hok
    subst hnil hl1 hl2 hl3 hl4 hl5
    simp only [AtomOK] at h1 h2 h3 h4 h5
    obtain ⟨w1, e1, hw1⟩ := h1
    obtain ⟨w2, e3, hw2⟩ := h3
    subst e1 e3 h2 h5
    refine ⟨w1, w2, b4, rfl, hw1, hw2, h4, ?_⟩
    unfold DBTModelStatus.get_runtime
    rw [hs]
    dsimp only
    simp only [List.flatten_cons, List.flatten_nil, List.cons_append,
      List.nil_append, List.append_nil, List.singleton_append]
    rw [searchA_secs hw1 hw2 h4]
    dsimp only
    simp only [List.flatten_cons, List.flatten_nil, List.append_nil]
    rw [pyRstrip_s h4]

theorem c6_runtime_extraction_witness :
    DBTModelStatus.get_runtime ("hello world") = .ok none ∧
    DBTModelStatus.get_runtime ("x [SELECT in 11.69s]") = .ok (some (mkRat 1169 100)) := by
  constructor
  · refine (c6_runtime_extraction ("hello world")).1 ?_
    intro hsh
    have h : searchA runtimePat ("hello world").toList = none := rfl
    rw [searchA_none_iff] at h
    exact h (searchHit_runtimePat_iff.mpr hsh)
  · obtain ⟨w1, w2, N, hsegs, hw1, hw2, hN, hrt⟩ :=
      (c6_runtime_extraction ("x [SELECT in 11.69s]")).2
        [[' '], ['i', 'n'], [' '], ['1', '1', '.', '6', '9'], ['s', ']']] (by rfl)
    injection hsegs with e1 t1
    injection t1 with e2 t2
    injection t2 with e3 t3
    injection t3 with e4 t4
    subst e4
    rw [hrt]
    rfl

theorem dropWhile_head_false {p : Char → Bool} {l : List Char} {y : Char}
    {ys : List Char} (h : l.dropWhile p = y :: ys) : p y = false := by
  induction l with
  | nil => simp at h
  | cons c cs ih =>
    rw [List.dropWhile_cons] at h
    by_cases hc : p c = true
    · rw [if_pos hc] at h
      exact ih h
    · rw [if_neg hc] at h
      injection h with h1 _
      subst h1
      cases hpc : p c with
      | false => rfl
      | true => exact absurd hpc hc

/-- C7 counterexample: the line 1:1:1 1 of 1 OK has a status keyword (its
status is Pass), yet get_model returns absent because the model-name regex also
requires one whitespace after the keyword; and on 1:1:1 1 of 1 OK Abc the
captured run is empty because the class has only lowercase letters, so the
name Abc is not captured. -/
theorem c7_counterexample :
    DBTModelStatus.statusOfRaw ("1:1:1 1 of 1 OK") = .PASS ∧
    DBTModelStatus.get_model ("1:1:1 1 of 1 OK") = none ∧
    DBTModelStatus.get_model ("1:1:1 1 of 1 OK Abc") = some [] := by
  refine ⟨rfl, rfl, rfl⟩

/-- C7 (amended): get_model returns absent exactly when no substring of the
line matches the model-name regex — which needs the line shape, a keyword and
one whitespace after it, so a line with a keyword can still yield absent; on a
match it returns the maximal run, after that whitespace, of characters that
are a period, a lowercase letter, an underscore, a digit or a space (uppercase
letters are not in the class), with one trailing period removed. -/
theorem c7_model_extraction (raw : String) :
    (DBTModelStatus.get_model raw = none ↔ ¬ SearchHit modelNamePat raw.toList) ∧
    (∀ segs, searchA modelNamePat raw.toList = some segs →
      ∃ (pre r N kw : List Char) (w5 : Char),
        segs.getD 12 [] = kw ∧
        kw ∈ [['O', 'K'], ['S', 'T', 'A', 'R', 'T'], ['E', 'R', 'R', 'O', 'R']] ∧
        segs.getD 13 [] = [w5] ∧ pySpace w5 = true ∧
        segs.getD 14 [] = N ∧ AllOf modelChar N ∧
        raw.toList = pre ++ segs.flatten ++ r ∧
        (r = [] ∨ ∃ y ys, r = y :: ys ∧ modelChar y = false) ∧
        DBTModelStatus.get_model raw = some (pyRemoveSuffix '.' N)) := by
  constructor
  · cases hs : searchA modelNamePat raw.toList with
    | none =>
      have hns : ¬ SearchHit modelNamePat raw.toList := searchA_none_iff.mp hs
      have hgm : DBTModelStatus.get_model raw = none := by
        unfold DBTModelStatus.get_model
        rw [hs]
      exact ⟨fun _ => hns, fun _ => hgm⟩
    | some segs0 =>
      have hhit : SearchHit modelNamePat raw.toList := by
        rw [← searchA_isSome_iff, hs]
        rfl
      have hgm : DBTModelStatus.get_model raw =
          some (pyRemoveSuffix '.' (segs0.getD 14 [])) := by
        unfold DBTModelStatus.get_model
        rw [hs]
      constructor
      · intro h
        rw [hgm] at h
        exact absurd h (by simp)
      · intro h
        exact absurd hhit h
  · intro segs hs
    obtain ⟨pre, rest, r0, heq, hm⟩ := searchA_eq_some hs
    have hsplit : matchA ([Atom.star pyDigit, Atom.str [':'], Atom.star pyDigit,
        Atom.str [':'], Atom.star pyDigit, Atom.star pySpace, Atom.star pyDigit,
        Atom.cls pySpace, Atom.str ['o', 'f'], Atom.star pySpace,
        Atom.star pyDigit, Atom.star pySpace,
        Atom.alts [['O', 'K'], ['S', 'T', 'A', 'R', 'T'], ['E', 'R', 'R', 'O', 'R']],
        Atom.cls pySpace] ++ [Atom.star modelChar]) rest = some (segs, r0) := hm
    rw [matchA_append_star] at hsplit
    cases hmm : matchA [Atom.star pyDigit, Atom.str [':'], Atom.star pyDigit,
        Atom.str [':'], Atom.star pyDigit, Atom.star pySpace, Atom.star pyDigit,
        Atom.cls pySpace, Atom.str ['o', 'f'], Atom.star pySpace,
        Atom.star pyDigit, Atom.star pySpace,
        Atom.alts [['O', 'K'], ['S', 'T', 'A', 'R', 'T'], ['E', 'R', 'R', 'O', 'R']],
        Atom.cls pySpace] rest with
    | none =>
      rw [hmm] at hsplit
      simp at hsplit
    | some p =>
      obtain ⟨segs0, mid⟩ := p
      rw [hmm] at hsplit
      simp only [Option.map, Option.some.injEq, Prod.mk.injEq] at hsplit
      obtain ⟨hsegs, hr⟩ := hsplit
      subst hsegs
      subst hr
      obtain ⟨hrest0, hok0⟩ := matchA_sound hmm
      simp only [SegsOK, List.forall₂_cons_left_iff,
        List.forall₂_nil_left_iff] at hok0
      obtain ⟨b1, l1, h1, ⟨b2, l2, h2, ⟨b3, l3, h3, ⟨b4, l4, h4, ⟨b5, l5, h5,
        ⟨b6, l6, h6, ⟨b7, l7, h7, ⟨b8, l8, h8, ⟨b9, l9, h9, ⟨b10, l10, h10,
        ⟨b11, l11, h11, ⟨b12, l12, h12, ⟨b13, l13, h13, ⟨b14, l14, h14,
        hnil, hl14⟩, hl13⟩, hl12⟩, hl11⟩, hl10⟩, hl9⟩, hl8⟩, hl7⟩, hl6⟩, hl5⟩,
        hl4⟩, hl3⟩, hl2⟩, hl1⟩ := hok0
      subst hnil hl1 hl2 hl3 hl4 hl5 hl6 hl7 hl8 hl9 hl10 hl11 hl12 hl13 hl14
      simp only [AtomOK] at h12 h13 h14
      obtain ⟨w5, e14, hw5⟩ := h14
      subst e14
      refine ⟨pre, mid.dropWhile modelChar, mid.takeWhile modelChar, b13, w5,
        rfl, h13, rfl, hw5, rfl, ?_, ?_, ?_, ?_⟩
      · intro x hx
        exact List.mem_takeWhile_imp hx
      · rw [heq, hrest0]
        simp [List.flatten_append, List.flatten_cons, List.flatten_nil,
          List.append_nil, List.append_assoc, List.takeWhile_append_dropWhile]
      · cases hd : mid.dropWhile modelChar with
        | nil => exact Or.inl rfl
        | cons y ys => exact Or.inr ⟨y, ys, rfl, dropWhile_head_false hd⟩
      · unfold DBTModelStatus.get_model
        rw [hs]
        rfl

theorem c7_model_extraction_witness :
    DBTModelStatus.get_model ("1:2:3 4 of 5 OK abc.") = some ['a', 'b', 'c'] ∧
    DBTModelStatus.get_model ("hello world") = none := by
  constructor
  · obtain ⟨pre, r, N, kw, w5, e12, hkw, e13, hw5, e14, hN, heq, hmax, hgm⟩ :=
      (c7_model_extraction ("1:2:3 4 of 5 OK abc.")).2
        [['1'], [':'], ['2'], [':'], ['3'], [' '], ['4'], [' '], ['o', 'f'],
         [' '], ['5'], [' '], ['O', 'K'], [' '], ['a', 'b', 'c', '.']] (by rfl)
    have hNe : ['a', 'b', 'c', '.'] = N := e14
    subst hNe
    rw [hgm]
    rfl
  · have h : searchA modelNamePat ("hello world").toList = none := rfl
    exact (c7_model_extraction ("hello world")).1.mpr (searchA_none_iff.mp h)
